import Mathlib

/-!
Verification development for the BPI statement parser.

The Python sources `src/transaction_parser.py` (classes `SimplePDFNormalizer`
and `TransactionParser`) and `account_mapper.py` (class `AccountMapper`) are
shallowly embedded here over `List Char`.  Every regular-expression
substitution used by the source is modelled by an explicit left-to-right,
non-overlapping scanner whose single-match semantics (greedy/lazy groups,
word boundaries, anchors) has been worked out for the concrete pattern in
question; comments on each definition name the pattern it embeds.  The
ASCII fragment of Python's `\s`, `\w`, `\d`, case folding and `str.strip`
is used throughout (all statement text is ASCII).
-/

namespace BPI

set_option maxRecDepth 100000
set_option synthInstance.maxSize 512

/-- A line of statement text, modelled as a list of characters. -/
abbrev Line := List Char

/-- ASCII whitespace, the fragment of Python's `\s` (and `str.strip`) that
occurs in statement text: space, tab, newline, carriage return, vertical
tab, form feed. -/
def isSpaceChar (c : Char) : Bool :=
  c = ' ' || c = '\t' || c = '\n' || c = '\r' || c = '\x0b' || c = '\x0c'

/-- ASCII decimal digit, Python's `\d` fragment. -/
def isDigitChar (c : Char) : Bool :=
  '0' ≤ c && c ≤ '9'

/-- ASCII letter, the character class `[A-Za-z]`. -/
def isAlphaChar (c : Char) : Bool :=
  ('A' ≤ c && c ≤ 'Z') || ('a' ≤ c && c ≤ 'z')

/-- ASCII upper-case letter, the character class `[A-Z]`. -/
def isUpperChar (c : Char) : Bool :=
  'A' ≤ c && c ≤ 'Z'

/-- ASCII word character, Python's `\w` fragment (used for `\b`). -/
def isWordChar (c : Char) : Bool :=
  isAlphaChar c || isDigitChar c || c = '_'

/-- ASCII lower-casing of one character, Python `str.lower` fragment. -/
def asciiLower (c : Char) : Char :=
  if isUpperChar c then Char.ofNat (c.toNat + 32) else c

/-- ASCII upper-casing of one character, Python `str.upper` fragment. -/
def asciiUpper (c : Char) : Char :=
  if ('a' ≤ c && c ≤ 'z') then Char.ofNat (c.toNat - 32) else c

/-- Lower-case a whole line. -/
def lowerLine (s : Line) : Line := s.map asciiLower

/-- Upper-case a whole line. -/
def upperLine (s : Line) : Line := s.map asciiUpper

/-- Drop trailing whitespace. -/
def dropTrailingWS : Line → Line
  | [] => []
  | c :: cs =>
    let r := dropTrailingWS cs
    if r.isEmpty && isSpaceChar c then [] else c :: r

/-- Python `str.strip()`: drop leading and trailing whitespace. -/
def stripWS (s : Line) : Line :=
  dropTrailingWS (s.dropWhile isSpaceChar)

/-- One pass of `re.sub(r'\s+', ' ', ·)`: every maximal whitespace run is
replaced by a single space.  The boolean records whether the previous
character belonged to a whitespace run. -/
def collapseGo (prevSpace : Bool) : Line → Line
  | [] => []
  | c :: cs =>
    if isSpaceChar c then
      if prevSpace then collapseGo true cs else ' ' :: collapseGo true cs
    else c :: collapseGo false cs

/-- `re.sub(r'\s+', ' ', s)`. -/
def collapseWS (s : Line) : Line := collapseGo false s

/-- Step 1 of `normalize_line`: `re.sub(r'\s+', ' ', line.strip())`. -/
def whitespaceCleanup (s : Line) : Line := collapseWS (stripWS s)

/-- Cleaned whitespace shape: every whitespace character is a plain space
followed by a non-whitespace character (so no runs, no non-space
whitespace, no trailing whitespace). -/
def cleanB : Line → Bool
  | [] => true
  | [c] => !isSpaceChar c
  | c :: d :: r => (!isSpaceChar c || (c = ' ' && !isSpaceChar d)) && cleanB (d :: r)

/-- The first character, if any, is not whitespace. -/
def headNW : Line → Bool
  | [] => true
  | c :: _ => !isSpaceChar c

/-- The last character, if any, is not whitespace. -/
def lastNW : Line → Bool
  | [] => true
  | [c] => !isSpaceChar c
  | _ :: d :: r => lastNW (d :: r)

/-- Case-sensitive literal prefix match; returns the rest of the input. -/
def matchExact : Line → Line → Option Line
  | [], s => some s
  | _ :: _, [] => none
  | p :: ps, x :: xs => if x = p then matchExact ps xs else none

/-- Case-insensitive (ASCII) literal prefix match; returns the rest. -/
def matchCI : Line → Line → Option Line
  | [], s => some s
  | _ :: _, [] => none
  | p :: ps, x :: xs => if asciiLower x = asciiLower p then matchCI ps xs else none

/-- Case-sensitive prefix test. -/
def isPrefixOfB : Line → Line → Bool
  | [], _ => true
  | _ :: _, [] => false
  | p :: ps, x :: xs => x = p && isPrefixOfB ps xs

/-- `pat` occurs as a contiguous substring of the second argument
(Python's `pat in s`). -/
def containsSub (pat : Line) : Line → Bool
  | [] => isPrefixOfB pat []
  | x :: xs => isPrefixOfB pat (x :: xs) || containsSub pat xs

/-- Case-insensitive substring occurrence (`re.IGNORECASE` search for a
literal, or `pat.lower() in s.lower()`). -/
def containsCI (pat : Line) (s : Line) : Bool :=
  containsSub (lowerLine pat) (lowerLine s)

/-- `\s+` at the head: requires at least one whitespace character, consumes
the maximal run (the following token in every pattern that uses this is a
non-whitespace literal or class, so maximal munch is exact). -/
def dropSpaces1 : Line → Option Line
  | [] => none
  | x :: xs => if isSpaceChar x then some (xs.dropWhile isSpaceChar) else none

/-!
Generic one-pass `re.sub` scanner.  `step prev s` attempts a match at the
current position of the original string (`prev` is the character just
before the position, for `\b` tests) and on success returns the
replacement text together with the rest of the original string after the
match.  The scanner emits the replacement, then resumes scanning after the
match, exactly like CPython's `re.sub` (non-overlapping, leftmost,
continuing after each match).  Fuel makes the recursion structural; every
step used in this file consumes at least one character per match, so
`fuel = length` suffices.
-/

/-- One `re.sub` pass over a string, with fuel. -/
def scan (step : Option Char → Line → Option (Line × Line)) :
    Nat → Option Char → Line → Line
  | 0, _, s => s
  | _ + 1, _, [] => []
  | fuel + 1, prev, x :: xs =>
    match step prev (x :: xs) with
    | some (rep, rest) =>
      rep ++ scan step fuel (((x :: xs).take ((x :: xs).length - rest.length)).getLast?) rest
    | none => x :: scan step fuel (some x) xs

/-- Run a `re.sub` pass over a whole string. -/
def runScan (step : Option Char → Line → Option (Line × Line)) (s : Line) : Line :=
  scan step s.length none s

/-!
`SimplePDFNormalizer._fix_currency_dots`: the four patterns are literal
sequences with optional-whitespace gaps (`\s*`), matched case
insensitively and replaced by the canonical `U.S.Dollar`.  In each
pattern a gap is always followed by a non-whitespace literal, so greedy
`\s*` is exactly maximal munch.
-/

/-- A token of a currency-dots pattern: a literal character or a `\s*` gap. -/
inductive Tok where
  | lit : Char → Tok
  | gap : Tok
deriving DecidableEq

/-- Match a token sequence at the head of the input (case-insensitive
literals, maximal-munch gaps); returns the rest of the input. -/
def matchToks : List Tok → Line → Option Line
  | [], s => some s
  | Tok.gap :: ts, s => matchToks ts (s.dropWhile isSpaceChar)
  | Tok.lit _ :: _, [] => none
  | Tok.lit c :: ts, x :: xs =>
    if asciiLower x = asciiLower c then matchToks ts xs else none

/-- Literal token run for a string. -/
def litToks (s : Line) : List Tok := s.map Tok.lit

/-- Tokens of `U\s*\.\s*S\s*\.\s*Dollar`. -/
def usdToks1 : List Tok :=
  [Tok.lit 'U', Tok.gap, Tok.lit '.', Tok.gap, Tok.lit 'S', Tok.gap,
   Tok.lit '.', Tok.gap] ++ litToks ("Dollar").data

/-- Tokens of `U\s*S\s*Dollar`. -/
def usdToks2 : List Tok :=
  [Tok.lit 'U', Tok.gap, Tok.lit 'S', Tok.gap] ++ litToks ("Dollar").data

/-- Tokens of `U\.S\s*Dollar`. -/
def usdToks3 : List Tok :=
  [Tok.lit 'U', Tok.lit '.', Tok.lit 'S', Tok.gap] ++ litToks ("Dollar").data

/-- Tokens of `U\s*\.\s*S\s*Dollar`. -/
def usdToks4 : List Tok :=
  [Tok.lit 'U', Tok.gap, Tok.lit '.', Tok.gap, Tok.lit 'S', Tok.gap] ++
    litToks ("Dollar").data

/-- The canonical replacement `U.S.Dollar`. -/
def usdCanon : Line := ("U.S.Dollar").data

/-- `re.sub` step for one currency-dots pattern. -/
def curStep (ts : List Tok) : Option Char → Line → Option (Line × Line) :=
  fun _ s => (matchToks ts s).map (fun rest => (usdCanon, rest))

/-- `SimplePDFNormalizer._fix_currency_dots`: the four substitutions are
applied in order. -/
def fixCurrencyDots (s : Line) : Line :=
  runScan (curStep usdToks4)
    (runScan (curStep usdToks3)
      (runScan (curStep usdToks2)
        (runScan (curStep usdToks1) s)))

/-!
`SimplePDFNormalizer._fix_month_spacing`: for each month `M`, the two
substitutions `\bM(\d{1,2})\b → M \1` and `\b(\d{1,2})M\b → \1 M`
(case-insensitive).  Since `\d{1,2}` is bounded and flanked by `\b`, a
match requires the maximal digit run at that spot to have length exactly
one or two.
-/

/-- The month names of `SimplePDFNormalizer.months`. -/
def months : List Line :=
  [("January").data, ("February").data, ("March").data, ("April").data,
   ("May").data, ("June").data, ("July").data, ("August").data,
   ("September").data, ("October").data, ("November").data, ("December").data]

/-- A word boundary holds before the current position (the pattern
continues with a word character). -/
def bOK : Option Char → Bool
  | none => true
  | some c => !(isWordChar c)

/-- A word boundary holds after the match (next char non-word, or end). -/
def nwHead : Line → Bool
  | [] => true
  | x :: _ => !(isWordChar x)

/-- Match attempt for `\bM(\d{1,2})\b` at the current position: month name
(case-insensitive) immediately followed by a digit run of length one or
two that ends at a word boundary.  Returns the captured digits and the
rest of the original string. -/
def tryMonthDay (m : Line) (prev : Option Char) (s : Line) : Option (Line × Line) :=
  if bOK prev then
    match matchCI m s with
    | none => none
    | some r1 =>
      match r1 with
      | d1 :: r2 =>
        if isDigitChar d1 then
          match r2 with
          | d2 :: r3 =>
            if isDigitChar d2 then
              if nwHead r3 then some ([d1, d2], r3) else none
            else if isWordChar d2 then none else some ([d1], r2)
          | [] => some ([d1], [])
        else none
      | [] => none
  else none

/-- Match attempt for `\b(\d{1,2})M\b` at the current position, greedy on
the digit width (two digits tried before one). -/
def tryDayMonth (m : Line) (prev : Option Char) (s : Line) : Option (Line × Line) :=
  if bOK prev then
    match s with
    | d1 :: r1 =>
      if isDigitChar d1 then
        let two :=
          match r1 with
          | d2 :: r2 =>
            if isDigitChar d2 then
              match matchCI m r2 with
              | some r3 => if nwHead r3 then some ([d1, d2], r3) else none
              | none => none
            else none
          | [] => none
        match two with
        | some v => some v
        | none =>
          match matchCI m r1 with
          | some r2 => if nwHead r2 then some ([d1], r2) else none
          | none => none
      else none
    | [] => none
  else none

/-- `re.sub` step for `\bM(\d{1,2})\b → M \1` (replacement uses the
canonical month spelling, as in the source's f-string). -/
def monthDayStep (m : Line) : Option Char → Line → Option (Line × Line) :=
  fun prev s => (tryMonthDay m prev s).map (fun p => (m ++ ' ' :: p.1, p.2))

/-- `re.sub` step for `\b(\d{1,2})M\b → \1 M`. -/
def dayMonthStep (m : Line) : Option Char → Line → Option (Line × Line) :=
  fun prev s => (tryDayMonth m prev s).map (fun p => (p.1 ++ ' ' :: m, p.2))

/-- `SimplePDFNormalizer._fix_month_spacing`: for each month in order, the
month-day substitution then the day-month substitution. -/
def fixMonthSpacing (s : Line) : Line :=
  months.foldl (fun t m => runScan (dayMonthStep m) (runScan (monthDayStep m) t)) s

/-!
`SimplePDFNormalizer._fix_amount_spacing`: the digit-joining substitutions
`(\d+)\s*,\s*(\d+) → \1,\2` and `(\d+)\s*\.\s*(\d+) → \1.\2`, then the
end-anchored `([A-Za-z])(-?\d{1,3}(?:,\d{3})*\.\d{2})$ → \1 \2`.
-/

/-- Match attempt for `(\d+)\s*<sep>\s*(\d+)` at the current position:
maximal digit run, optional spaces, the separator, optional spaces,
maximal digit run (all greedy steps are exact here since digits,
whitespace and the separator are disjoint). -/
def tryJoin (sep : Char) (s : Line) : Option (Line × Line × Line) :=
  let p1 := s.span isDigitChar
  if p1.1.isEmpty then none
  else
    match p1.2.dropWhile isSpaceChar with
    | c :: r3 =>
      if c = sep then
        let p2 := (r3.dropWhile isSpaceChar).span isDigitChar
        if p2.1.isEmpty then none else some (p1.1, p2.1, p2.2)
      else none
    | [] => none

/-- `re.sub` step for the digit-joining substitutions. -/
def joinStep (sep : Char) : Option Char → Line → Option (Line × Line) :=
  fun _ s => (tryJoin sep s).map (fun t => (t.1 ++ sep :: t.2.1, t.2.2))

/-- The regular language `\.\d{2}$ | ,\d{3}(?:,\d{3})*\.\d{2}$` that follows
the leading digit group of an amount: thousands groups of exactly three
digits, then a decimal point and exactly two digits, ending the string. -/
def amountGroups : Line → Bool
  | ['.', a, b] => isDigitChar a && isDigitChar b
  | ',' :: a :: b :: c :: r2 =>
    isDigitChar a && isDigitChar b && isDigitChar c && amountGroups r2
  | _ => false

/-- The anchored amount language `\d{1,3}(?:,\d{3})*\.\d{2}$` (no sign):
the string consists of one to three leading digits, thousands groups, a
decimal point and two digits. -/
def amountCore (s : Line) : Bool :=
  let p := s.span isDigitChar
  decide (1 ≤ p.1.length) && decide (p.1.length ≤ 3) && amountGroups p.2

/-- The anchored amount language with optional sign,
`-?\d{1,3}(?:,\d{3})*\.\d{2}$`. -/
def amountLang : Line → Bool
  | '-' :: r => amountCore r
  | s => amountCore s

/-- `re.sub(r'([A-Za-z])(-?\d{1,3}(?:,\d{3})*\.\d{2})$', r'\1 \2', ·)`:
the match must reach the end of the string, so at most one replacement
happens — at the leftmost letter whose entire suffix is an amount. -/
def fixEndAmount : Line → Line
  | [] => []
  | x :: xs =>
    if isAlphaChar x && amountLang xs then x :: ' ' :: xs
    else x :: fixEndAmount xs

/-- `SimplePDFNormalizer._fix_amount_spacing`. -/
def fixAmountSpacing (s : Line) : Line :=
  fixEndAmount (runScan (joinStep '.') (runScan (joinStep ',') s))

/-- `SimplePDFNormalizer.normalize_line`: empty lines are returned as-is;
otherwise whitespace cleanup, currency-dot fixes, month-spacing fixes and
amount-spacing fixes are applied in order. -/
def normalizeLine (line : Line) : Line :=
  if line.isEmpty then line
  else fixAmountSpacing (fixMonthSpacing (fixCurrencyDots (whitespaceCleanup line)))

/-!
`TransactionParser._determine_transaction_year` and its date arithmetic.
`datetime.strptime(name, "%B")` / `"%b"` succeed exactly when the whole
string equals a full / abbreviated month name case-insensitively.
-/

/-- Month number for a full month name (`strptime` with `%B`),
case-insensitive, whole-string. -/
def monthNumFull (s : Line) : Option Nat :=
  (months.findIdx? (fun m => lowerLine s = lowerLine m)).map (fun i => i + 1)

/-- Month number for an abbreviated month name (`strptime` with `%b`),
case-insensitive, whole-string; the C-locale abbreviations are the first
three letters of the full names. -/
def monthNumAbbr (s : Line) : Option Nat :=
  (months.findIdx? (fun m => lowerLine s = lowerLine (m.take 3))).map (fun i => i + 1)

/-- `%B` then `%b`, as in the nested `try` blocks of the source. -/
def monthNum (s : Line) : Option Nat :=
  match monthNumFull s with
  | some n => some n
  | none => monthNumAbbr s

/-- `TransactionParser._determine_transaction_year`: the statement year is
used unless the parsed month is December and the statement month is
January, in which case the previous year is used.  A missing or falsy
(`None` or `0`) month name or statement year, or an unparseable month
name, returns the statement year unchanged. -/
def determineTransactionYear (monthName : Line) (statementYear : Option Int)
    (statementMonth : Option Int) : Option Int :=
  if monthName.isEmpty || statementYear = none || statementYear = some 0 then
    statementYear
  else
    match monthNum monthName with
    | none => statementYear
    | some n =>
      if n = 12 && statementMonth = some 1 then statementYear.map (fun y => y - 1)
      else statementYear

/-- Decimal digits of a natural number (fuel-based so that it reduces). -/
def natDigitsAux : Nat → Nat → Line → Line
  | 0, _, acc => acc
  | fuel + 1, n, acc =>
    if n = 0 then acc
    else natDigitsAux fuel (n / 10) (Char.ofNat (48 + n % 10) :: acc)

/-- Decimal rendering of a natural number. -/
def natLine (n : Nat) : Line :=
  if n = 0 then ['0'] else natDigitsAux n n []

/-- Decimal rendering of an integer (Python `str(int)`). -/
def intLine (i : Int) : Line :=
  if i < 0 then '-' :: natLine i.natAbs else natLine i.toNat

/-- Rendering of the year inside the f-string `f"{month} {day} {year}"`:
`None` prints as the word None. -/
def showOptYear : Option Int → Line
  | some y => intLine y
  | none => ("None").data

/-- Numeric value of a digit run. -/
def natOfDigits (s : Line) : Nat :=
  s.foldl (fun a c => a * 10 + (c.toNat - 48)) 0

/-!
Amount values.  The source stores `float(text)` of decimal strings; here
the denoted decimal value is represented exactly as a canonical pair
(mantissa, exponent) meaning `m / 10 ^ e`, with trailing zeros stripped so
that structural equality coincides with value equality (as float equality
does on the statement's amounts).
-/

/-- An exact decimal value `m / 10 ^ e`. -/
structure Dec where
  m : Int
  e : Nat
deriving DecidableEq

/-- Strip factors of ten (fuel-based canonicalization). -/
def decCanonAux : Nat → Int → Nat → Dec
  | 0, m, e => ⟨m, e⟩
  | f + 1, m, e =>
    if e = 0 then ⟨m, 0⟩
    else if m % 10 = 0 then decCanonAux f (m / 10) (e - 1) else ⟨m, e⟩

/-- The canonical decimal with value `m / 10 ^ e`. -/
def decOf (m : Int) (e : Nat) : Dec := decCanonAux e m e

/-- Value of a matched amount group of shape `-?` digits-with-commas `.` two
digits (the shape guaranteed by the amount regexes):
`float(g.replace(',', ''))` as an exact decimal. -/
def amountToDec (s : Line) : Dec :=
  let neg := s.head? = some '-'
  let t := if neg then s.tail else s
  let t2 := t.filter (fun c => c ≠ ',')
  let ip := t2.takeWhile isDigitChar
  let fp := (t2.dropWhile isDigitChar).drop 1
  let n : Int := (natOfDigits (ip ++ fp) : Int)
  decOf (if neg then -n else n) 2

/-- Python `float` on a comma-stripped `[\d.]*` string, as an exact
decimal; `none` models the `ValueError` cases (no digits, or a second
decimal point), which the source does not catch. -/
def parseFloatDec (s : Line) : Option Dec :=
  let ip := s.takeWhile isDigitChar
  let r := s.dropWhile isDigitChar
  match r with
  | [] => if ip.isEmpty then none else some (decOf (natOfDigits ip : Int) 0)
  | '.' :: fr =>
    if fr.all isDigitChar then
      if ip.isEmpty && fr.isEmpty then none
      else some (decOf (natOfDigits (ip ++ fr) : Int) fr.length)
    else none
  | _ => none

/-- A parsed transaction record, the dictionary built by
`TransactionParser._parse_single_line` / `_parse_two_lines`. -/
structure Txn where
  card : Line
  transaction_date : Line
  post_date : Line
  description : Line
  amount : Dec
  currency : Line
  foreign_amount : Option Dec
deriving DecidableEq

/-- The shared date prefix `^([A-Za-z]+)\s+(\d{1,2})\s+([A-Za-z]+)\s+(\d{1,2})\s+`
of the single-line and two-line first-line patterns: returns the four
captured groups and the rest after the final space run.  Each greedy
letter/digit run followed by `\s+` is exact maximal munch, and a digit run
of length three or more fails both quantifier widths. -/
def matchDatePrefix (s : Line) : Option (Line × Line × Line × Line × Line) := do
  let a1p := s.span isAlphaChar
  if a1p.1.isEmpty then none else
  let r2 ← dropSpaces1 a1p.2
  let n1p := r2.span isDigitChar
  if n1p.1.isEmpty || decide (2 < n1p.1.length) then none else
  let r4 ← dropSpaces1 n1p.2
  let a2p := r4.span isAlphaChar
  if a2p.1.isEmpty then none else
  let r6 ← dropSpaces1 a2p.2
  let n2p := r6.span isDigitChar
  if n2p.1.isEmpty || decide (2 < n2p.1.length) then none else
  let r8 ← dropSpaces1 n2p.2
  pure (a1p.1, n1p.1, a2p.1, n2p.1, r8)

/-- The lazy tail `(.+?)\s+(G)$` of both first-line patterns: the shortest
non-empty description (of non-newline characters, Python `.`) such that
the remainder is a whitespace run followed by a final group satisfying
`finalOK` that extends to the end of the string.  Returns the description
and the final group. -/
def lazySplitAux (finalOK : Line → Bool) (acc : Line) : Line → Option (Line × Line)
  | [] => none
  | x :: xs =>
    if x = '\n' then none
    else
      match dropSpaces1 xs with
      | some r => if finalOK r then some (acc ++ [x], r) else lazySplitAux finalOK (acc ++ [x]) xs
      | none => lazySplitAux finalOK (acc ++ [x]) xs

/-- The single-line pattern of `TransactionParser._parse_single_line`:
`^([A-Za-z]+)\s+(\d{1,2})\s+([A-Za-z]+)\s+(\d{1,2})\s+(.+?)\s+(-?\d{1,3}(?:,\d{3})*\.\d{2})$`. -/
def matchSingleLine (s : Line) : Option (Line × Line × Line × Line × Line × Line) := do
  let (m1, n1, m2, n2, rest) ← matchDatePrefix s
  let (desc, amt) ← lazySplitAux amountLang [] rest
  pure (m1, n1, m2, n2, desc, amt)

/-- The home currency code `PHP`. -/
def phpCurrency : Line := ("PHP").data

/-- `TransactionParser._parse_single_line` (yields records with the year
resolved by `_determine_transaction_year`, which is called without a
statement month, exactly as in the source). -/
def parseSingleLine (line : Line) (card : Line) (statementYear : Option Int) : Option Txn :=
  match matchSingleLine line with
  | none => none
  | some (m1, n1, m2, n2, desc, amt) =>
    let ty := determineTransactionYear m1 statementYear none
    let py := determineTransactionYear m2 statementYear none
    some
      { card := card
        transaction_date := m1 ++ ' ' :: (n1 ++ ' ' :: showOptYear ty)
        post_date := m2 ++ ' ' :: (n2 ++ ' ' :: showOptYear py)
        description := stripWS desc
        amount := amountToDec amt
        currency := phpCurrency
        foreign_amount := none }

/-- The final group `([A-Z]{2,3})$` of the two-line first pattern: the
whole remainder is two or three upper-case letters. -/
def upper23 (r : Line) : Bool :=
  (decide (r.length = 2) || decide (r.length = 3)) && r.all isUpperChar

/-- The first pattern of `TransactionParser._parse_two_lines`:
`^([A-Za-z]+)\s+(\d{1,2})\s+([A-Za-z]+)\s+(\d{1,2})\s+(.+?)\s+([A-Z]{2,3})$`. -/
def matchTwoLine1 (s : Line) : Option (Line × Line × Line × Line × Line × Line) := do
  let (m1, n1, m2, n2, rest) ← matchDatePrefix s
  let (desc, code) ← lazySplitAux upper23 [] rest
  pure (m1, n1, m2, n2, desc, code)

/-- The second pattern of `TransactionParser._parse_two_lines`:
`^U\.S\.Dollar\s+([\d.,]+)\s+(\d{1,3}(?:,\d{3})*\.\d{2})$` (case
sensitive); returns the two captured amount groups. -/
def matchCurrencyLine (s : Line) : Option (Line × Line) := do
  let r1 ← matchExact usdCanon s
  let r2 ← dropSpaces1 r1
  let g1p := r2.span (fun c => isDigitChar c || c = '.' || c = ',')
  if g1p.1.isEmpty then none else
  let r4 ← dropSpaces1 g1p.2
  if amountCore r4 then pure (g1p.1, r4) else none

/-- The country-code names used by `_parse_two_lines`. -/
def usCode : Line := ("US").data

/-- The country code `SG`. -/
def sgCode : Line := ("SG").data

/-- `TransactionParser._parse_two_lines`: both patterns must match; the
currency is `USD` for country code `US`, `SGD` for `SG`, and `NZD` for
every other matched code.  `float` on the foreign-amount group raising
`ValueError` is modelled as no record. -/
def parseTwoLines (line1 line2 : Line) (card : Line) (statementYear : Option Int) :
    Option Txn :=
  match matchTwoLine1 line1, matchCurrencyLine line2 with
  | some (m1, n1, m2, n2, desc, code), some (g1, g2) =>
    let ty := determineTransactionYear m1 statementYear none
    let py := determineTransactionYear m2 statementYear none
    let currency :=
      if code = usCode then ("USD").data
      else if code = sgCode then ("SGD").data
      else ("NZD").data
    match parseFloatDec (g1.filter (fun c => c ≠ ',')) with
    | none => none
    | some fq =>
      some
        { card := card
          transaction_date := m1 ++ ' ' :: (n1 ++ ' ' :: showOptYear ty)
          post_date := m2 ++ ' ' :: (n2 ++ ' ' :: showOptYear py)
          description := stripWS desc
          amount := amountToDec g2
          currency := currency
          foreign_amount := some fq }
  | _, _ => none

/-!
`TransactionParser._should_skip` and the skip patterns; all searches are
case-insensitive (`re.IGNORECASE`), unanchored unless the pattern starts
with `^`.
-/

/-- `\s+\d` after a matched literal: at least one whitespace character,
then a digit. -/
def spacesThenDigit : Line → Bool
  | [] => false
  | x :: xs =>
    isSpaceChar x &&
      (match xs.dropWhile isSpaceChar with
       | y :: _ => isDigitChar y
       | [] => false)

/-- `^Finance Charge\s+\d`. -/
def financeChargeHead (l : Line) : Bool :=
  match matchCI (("Finance Charge").data) l with
  | some r => spacesThenDigit r
  | none => false

/-- `Transaction\s+Post.*Date` anchored at the current position (`.`
does not cross a newline). -/
def tpdAt (s : Line) : Bool :=
  match matchCI (("Transaction").data) s with
  | none => false
  | some r1 =>
    match dropSpaces1 r1 with
    | none => false
    | some r2 =>
      match matchCI (("Post").data) r2 with
      | none => false
      | some r3 => containsCI (("Date").data) (r3.takeWhile (fun c => c ≠ '\n'))

/-- Unanchored search for `Transaction\s+Post.*Date`. -/
def transactionPostDate : Line → Bool
  | [] => false
  | x :: xs => tpdAt (x :: xs) || transactionPostDate xs

/-- Exactly `n` digits at the head; returns the rest. -/
def exactDigits : Nat → Line → Option Line
  | 0, s => some s
  | n + 1, x :: xs => if isDigitChar x then exactDigits n xs else none
  | _ + 1, [] => none

/-- `^\d{6}-\d-\d{2}-\d{7}` (the customer-ID shape). -/
def custIdHead (l : Line) : Bool :=
  (do
    let r1 ← exactDigits 6 l
    let r2 ← match r1 with | '-' :: t => some t | _ => none
    let r3 ← exactDigits 1 r2
    let r4 ← match r3 with | '-' :: t => some t | _ => none
    let r5 ← exactDigits 2 r4
    let r6 ← match r5 with | '-' :: t => some t | _ => none
    let _ ← exactDigits 7 r6
    pure ()).isSome

/-- The alternatives of `^(Date|Transaction|Post Date|Description|Amount)\s*$`. -/
def colHeaderWords : List Line :=
  [("Date").data, ("Transaction").data, ("Post Date").data,
   ("Description").data, ("Amount").data]

/-- `^(Date|Transaction|Post Date|Description|Amount)\s*$`. -/
def colHeaderLine (l : Line) : Bool :=
  colHeaderWords.any (fun w =>
    match matchCI w l with
    | some r => r.all isSpaceChar
    | none => false)

/-- `TransactionParser._should_skip`: the boilerplate patterns of
`skip_patterns`, searched case-insensitively. -/
def skipLine (l : Line) : Bool :=
  containsCI (("Statement of Account").data) l ||
  containsCI (("Customer Number").data) l ||
  containsCI (("Previous Balance").data) l ||
  containsCI (("Past Due").data) l ||
  containsCI (("Ending Balance").data) l ||
  containsCI (("Unbilled Installment").data) l ||
  financeChargeHead l ||
  containsCI (("GIOVANNI BACAREZA").data) l ||
  transactionPostDate l ||
  custIdHead l ||
  colHeaderLine l

/-- `TransactionParser._parse_card_section`: scan the section's lines,
skipping blank and boilerplate lines, trying the single-line pattern on
the normalized line and then the two-line pattern on the normalized pair,
consuming two lines on a two-line match. -/
def parseCardSection (card : Line) (statementYear : Option Int) : List Line → List Txn
  | [] => []
  | [l] =>
    let line := stripWS l
    if line.isEmpty || skipLine line then []
    else
      match parseSingleLine (normalizeLine line) card statementYear with
      | some t => [t]
      | none => []
  | l :: l2 :: ls2 =>
    let line := stripWS l
    if line.isEmpty || skipLine line then parseCardSection card statementYear (l2 :: ls2)
    else
      let norm := normalizeLine line
      match parseSingleLine norm card statementYear with
      | some t => t :: parseCardSection card statementYear (l2 :: ls2)
      | none =>
        match parseTwoLines norm (normalizeLine (stripWS l2)) card statementYear with
        | some t => t :: parseCardSection card statementYear ls2
        | none => parseCardSection card statementYear (l2 :: ls2)

/-!
`TransactionParser._split_by_cards`: the section dictionary.  A Python
`dict` preserves insertion order and assignment to an existing key
replaces its value in place; `sections` is modelled as an ordered
association list with that update operation, holding the section's lines
(the source stores them joined with newlines).
-/

/-- Section label for the gold card. -/
def goldName : Line := ("BPI GOLD REWARDS CARD").data

/-- Section label for the e-credit card. -/
def ecreditName : Line := ("BPI ECREDIT CARD").data

/-- Section label when no header is recognized. -/
def unknownName : Line := ("UNKNOWN_CARD").data

/-- A gold-card header: after normalizing, upper-casing and removing
spaces, the line contains one of the gold patterns. -/
def isGoldHeader (l : Line) : Bool :=
  let n := (upperLine (normalizeLine l)).filter (fun c => c ≠ ' ')
  containsSub (("BPIGOLDREWARDS").data) n ||
  containsSub (("GOLDREWARDS").data) n ||
  containsSub (("BPIEXPRESSCREDITGOLDMASTERCARD").data) n

/-- An e-credit header: after normalizing, upper-casing and removing
spaces and hyphens, the line contains one of the e-credit patterns, and
the normalized upper-cased line does not contain `GOLD`. -/
def isEcreditHeader (l : Line) : Bool :=
  let nl := upperLine (normalizeLine l)
  let n := (nl.filter (fun c => c ≠ ' ')).filter (fun c => c ≠ '-')
  (containsSub (("BPIECREDIT").data) n || containsSub (("ECREDITCARD").data) n) &&
    !containsSub (("GOLD").data) nl

/-- The ordered association list of sections. -/
abbrev Sections := List (Line × List Line)

/-- Python dict assignment: replace the value at an existing key in
place, otherwise append the binding. -/
def upsert (secs : Sections) (k : Line) (v : List Line) : Sections :=
  if secs.any (fun p => p.1 = k) then
    secs.map (fun p => if p.1 = k then (k, v) else p)
  else secs ++ [(k, v)]

/-- Flush the current section into the dictionary (`if current_card and
current_section:`). -/
def flushSec (cur : Option Line) (acc : List Line) (secs : Sections) : Sections :=
  match cur with
  | some c => if acc.isEmpty then secs else upsert secs c acc
  | none => secs

/-- The scanning loop of `_split_by_cards`. -/
def splitGo (cur : Option Line) (acc : List Line) (secs : Sections) :
    List Line → Sections
  | [] => flushSec cur acc secs
  | l :: ls =>
    if isGoldHeader l then splitGo (some goldName) [l] (flushSec cur acc secs) ls
    else if isEcreditHeader l then
      splitGo (some ecreditName) [l] (flushSec cur acc secs) ls
    else if cur.isSome then splitGo cur (acc ++ [l]) secs ls
    else splitGo cur acc secs ls

/-- `TransactionParser._split_by_cards` on the list of lines of the text:
scan for headers; if no section was produced, the whole text goes to the
`UNKNOWN_CARD` section. -/
def splitByCards (lines : List Line) : Sections :=
  let secs := splitGo none [] [] lines
  if secs.isEmpty then [(unknownName, lines)] else secs

/-- The deduplication key of `TransactionParser._remove_duplicates`. -/
def txnKey (t : Txn) : Line × Line × Line × Dec × Line :=
  (t.transaction_date, t.post_date, t.description, t.amount, t.currency)

/-- The loop of `_remove_duplicates`, carrying the `seen` set. -/
def removeDuplicatesAux (seen : List (Line × Line × Line × Dec × Line)) :
    List Txn → List Txn
  | [] => []
  | t :: ts =>
    if txnKey t ∈ seen then removeDuplicatesAux seen ts
    else t :: removeDuplicatesAux (txnKey t :: seen) ts

/-- `TransactionParser._remove_duplicates`: keep the first record seen for
each key. -/
def removeDuplicates (ts : List Txn) : List Txn :=
  removeDuplicatesAux [] ts

/-- Split a text into lines at newline characters (Python
`text.split('\n')`). -/
def splitLines : Line → List Line
  | [] => [[]]
  | x :: xs =>
    if x = '\n' then [] :: splitLines xs
    else
      match splitLines xs with
      | h :: t => (x :: h) :: t
      | [] => [[x]]

/-- `TransactionParser.parse_transactions`: split into card sections,
parse each section in dictionary order, concatenate, deduplicate. -/
def parseTransactions (text : Line) (statementYear : Option Int) : List Txn :=
  removeDuplicates
    ((splitByCards (splitLines text)).flatMap
      (fun sec => parseCardSection sec.1 statementYear sec.2))

/-!
`AccountMapper` (`account_mapper.py`).  The fuzzy matcher
`fuzzywuzzy.process.extractOne` is an external library; it is modelled as
an abstract oracle in the environment, so every theorem below holds for
every behaviour of the fuzzy matcher.  The construction-time tables are
the literal tables of the source, in insertion order.
-/

/-- The fallback sentinel. -/
def manualReview : Line := ("Manual Review").data

/-- `AccountMapper.known_mappings`, in insertion order. -/
def knownMappings : List (Line × Line) :=
  [(("Apple.Com/Bill Itunes.Com").data, ("Expenses:Entertainment:Music/Movies").data),
   (("Payment -Thank You").data, ("Liabilities:Credit Card:BPI Mastercard").data),
   (("Metromart Makati").data, ("Expenses:Food:Groceries").data),
   (("Google *Youtubepremium").data, ("Expenses:Entertainment:Music/Movies").data),
   (("Audible*").data, ("Expenses:Education:Books").data),
   (("Nintendo Cd").data, ("Expenses:Entertainment:Recreation").data),
   (("Google *Minecraft").data, ("Expenses:Entertainment:Recreation").data),
   (("Scribd Inc*588895228 SanFrancisco").data,
    ("Expenses:Professional Development & Productivity").data),
   (("Google Cloud").data, ("Expenses:Professional Development & Productivity").data),
   (("Netflix.Com").data, ("Expenses:Entertainment:Music/Movies").data),
   (("Medium Monthly SanFrancisco").data,
    ("Expenses:Professional Development & Productivity").data),
   (("DJ*Wall-St-Journal").data, ("Expenses:Education:Newspaper & Magazines").data),
   (("DJ*Wsj").data, ("Expenses:Education:Newspaper & Magazines").data),
   (("Backblaze").data, ("Expenses:Professional Development & Productivity").data),
   (("Epic!Reading").data, ("Expenses:Childcare:Books").data),
   (("Grab Makati").data, ("Expenses:Professional Fees").data),
   (("AmznDigital*").data, ("Expenses:Education:Books").data),
   (("Epic! Reading").data, ("Expenses:Childcare:Books").data),
   (("Getepic.Com").data, ("Expenses:Childcare:Books").data),
   (("Netﬂix.Com").data, ("Expenses:Entertainment:Music/Movies").data),
   (("Paypal *Dotphdomain").data, ("Assets:Investments:Investment in Business").data),
   (("Reversal-Finance Charges").data,
    ("Expenses:Banking Costs:Bank Service Charge").data),
   (("Smart App").data, ("Expenses:Utilities:Mobile").data),
   (("TiezaNaiaT3").data, ("Expenses:Travel:Fare").data),
   (("Wsj/Barrons Subscripti").data, ("Expenses:Education:Newspaper & Magazines").data)]

/-- `AccountMapper.keyword_rules`, in insertion order; each value is the
singleton candidate-account list of the source. -/
def keywordRules : List (Line × List Line) :=
  [(("apple").data, [("Expenses:Entertainment:Music/Movies").data]),
   (("google").data, [("Expenses:Professional Development & Productivity").data]),
   (("audible").data, [("Expenses:Education:Books").data]),
   (("netflix").data, [("Expenses:Entertainment:Music/Movies").data]),
   (("nintendo").data, [("Expenses:Entertainment:Recreation").data]),
   (("amazon").data, [("Expenses:Household Supplies").data]),
   (("scribd").data, [("Expenses:Professional Development & Productivity").data]),
   (("medium").data, [("Expenses:Professional Development & Productivity").data]),
   (("backblaze").data, [("Expenses:Professional Development & Productivity").data]),
   (("microsoft").data, [("Expenses:Professional Development & Productivity").data]),
   (("notion").data, [("Expenses:Professional Development & Productivity").data]),
   (("lastpass").data, [("Expenses:Professional Development & Productivity").data]),
   (("curiositystream").data, [("Expenses:Entertainment:Music/Movies").data]),
   (("economist").data, [("Expenses:Education:Newspaper & Magazines").data]),
   (("myfitnesspal").data, [("Expenses:Health").data]),
   (("ground news").data, [("Expenses:Education:Newspaper & Magazines").data]),
   (("hbogoasia").data, [("Expenses:Entertainment:Music/Movies").data]),
   (("minecraft").data, [("Expenses:Entertainment:Recreation").data]),
   (("shopee").data, [("Expenses:Household Supplies").data]),
   (("lazada").data, [("Expenses:Household Supplies").data]),
   (("shein").data, [("Expenses:Clothes").data]),
   (("metromart").data, [("Expenses:Food:Groceries").data]),
   (("grab").data, [("Expenses:Professional Fees").data]),
   (("food panda").data, [("Expenses:Food:Dining").data]),
   (("foodpanda").data, [("Expenses:Food:Dining").data]),
   (("cafe").data, [("Expenses:Food:Dining").data]),
   (("chicken").data, [("Expenses:Food:Dining").data]),
   (("tonkatsu").data, [("Expenses:Food:Dining").data]),
   (("grill").data, [("Expenses:Food:Dining").data]),
   (("restaurant").data, [("Expenses:Food:Dining").data]),
   (("dynasty").data, [("Expenses:Food:Dining").data]),
   (("taxumo").data, [("Expenses:Professional Fees").data]),
   (("paypal").data, [("Manual Review").data]),
   (("godaddy").data, [("Assets:Investments:Investment in Business").data]),
   (("sharesight").data, [("Expenses:Professional Development & Productivity").data]),
   (("meralco").data, [("Expenses:Utilities:Electric").data]),
   (("s&r").data, [("Expenses:Food:Groceries").data]),
   (("hotel").data, [("Expenses:Travel:Hotel").data]),
   (("amzndigital").data, [("Expenses:Education:Books").data]),
   (("getepic").data, [("Expenses:Childcare:Books").data]),
   (("dotphdomain").data, [("Assets:Investments:Investment in Business").data]),
   (("reversal").data, [("Expenses:Banking Costs:Bank Service Charge").data]),
   (("smart app").data, [("Expenses:Utilities:Mobile").data]),
   (("tiezanaia").data, [("Expenses:Travel:Fare").data]),
   (("barrons").data, [("Expenses:Education:Newspaper & Magazines").data]),
   (("payment").data, [("Liabilities:Credit Card:BPI Mastercard").data]),
   (("thank you").data, [("Liabilities:Credit Card:BPI Mastercard").data]),
   (("finance charge").data, [("Expenses:Banking Costs:Interest").data])]

/-- The mapper's runtime environment: whether `fuzzywuzzy` imported, the
expense-account list loaded from the optional CSV, and the behaviour of
`process.extractOne` (best match and score). -/
structure MapperEnv where
  fuzzyAvailable : Bool
  expenseAccounts : List Line
  extractOne : Line → List Line → Line × Int

/-- Strategy 1 lookup: the first known mapping whose key is a
case-insensitive substring of the description. -/
def findKnown (desc : Line) : Option (Line × Line) :=
  knownMappings.find? (fun p => containsSub (lowerLine p.1) (lowerLine desc))

/-- Dictionary access `self.known_mappings[k]` (total: the oracle returns
one of the keys, and an absent key is modelled as the empty string). -/
def lookupMappingVal (k : Line) : Line :=
  ((knownMappings.find? (fun p => p.1 = k)).map (fun p => p.2)).getD []

/-- Strategy 5 of `map_description_to_account`: default buckets from
generic substrings of the lower-cased description. -/
def strategy5 (descLower : Line) : Line :=
  if containsSub (("payment").data) descLower ||
      containsSub (("thank you").data) descLower ||
      containsSub (("credit").data) descLower then
    ("Liabilities:Credit Card:BPI Mastercard").data
  else if containsSub (("restaurant").data) descLower ||
      containsSub (("cafe").data) descLower ||
      containsSub (("dining").data) descLower ||
      containsSub (("food").data) descLower then
    ("Expenses:Food:Dining").data
  else if containsSub (("store").data) descLower ||
      containsSub (("shop").data) descLower ||
      containsSub (("market").data) descLower ||
      containsSub (("mall").data) descLower then
    ("Expenses:Electronics & Software").data
  else if containsSub (("transport").data) descLower ||
      containsSub (("taxi").data) descLower ||
      containsSub (("grab").data) descLower ||
      containsSub (("uber").data) descLower then
    ("Expenses:Professional Fees").data
  else manualReview

/-- Strategy 4: fuzzy match of the description against the expense
accounts, accepted at the general threshold (60). -/
def strategy4 (env : MapperEnv) (desc : Line) : Line :=
  if env.fuzzyAvailable && !env.expenseAccounts.isEmpty then
    let ms := env.extractOne desc env.expenseAccounts
    if ms.2 ≥ 60 then ms.1 else strategy5 (lowerLine desc)
  else strategy5 (lowerLine desc)

/-- Strategy 3: first keyword rule whose keyword occurs in the
lower-cased description; with an account list and fuzzy matching, the
candidate is refined against the expense accounts at the keyword
threshold (70). -/
def strategy3 (env : MapperEnv) (desc : Line) : Line :=
  match keywordRules.find? (fun kr => containsSub kr.1 (lowerLine desc)) with
  | some kr =>
    if !env.expenseAccounts.isEmpty && env.fuzzyAvailable then
      let ms := env.extractOne (kr.2.headD []) env.expenseAccounts
      if ms.2 ≥ 70 then ms.1 else kr.2.headD []
    else kr.2.headD []
  | none => strategy4 env desc

/-- `AccountMapper.map_description_to_account`. -/
def mapDescriptionToAccount (env : MapperEnv) (desc : Line) : Line :=
  if desc.isEmpty then manualReview
  else
    match findKnown desc with
    | some p => p.2
    | none =>
      if env.fuzzyAvailable && !knownMappings.isEmpty then
        let ms := env.extractOne desc (knownMappings.map (fun p => p.1))
        if ms.2 ≥ 80 then lookupMappingVal ms.1 else strategy3 env desc
      else strategy3 env desc

/-- `AccountMapper.get_mapping_confidence`: the mapped account with a
confidence score (100 for known-pattern substring matches, the fuzzy
score at or above the fuzzy threshold, otherwise the default 50; empty
descriptions get 0). -/
def getMappingConfidence (env : MapperEnv) (desc : Line) : Line × Int :=
  if desc.isEmpty then (manualReview, 0)
  else
    match findKnown desc with
    | some p => (p.2, 100)
    | none =>
      if env.fuzzyAvailable && !knownMappings.isEmpty then
        let ms := env.extractOne desc (knownMappings.map (fun p => p.1))
        if ms.2 ≥ 80 then (lookupMappingVal ms.1, ms.2)
        else (mapDescriptionToAccount env desc, 50)
      else (mapDescriptionToAccount env desc, 50)

/-!
Theorems.  Claim numbers refer to the frozen claims file.
-/

/-- Claim C4 (single-line round-trip): parsing the line
`May 1 May 2 Netflix.Com 549.00` with statement year 2025, for any card
section, yields exactly one record with transaction date May 1 2025, post
date May 2 2025, description `Netflix.Com`, amount 549.00, the home
currency PHP and no foreign amount. -/
theorem claim_C4_single_line_round_trip (card : Line) :
    parseCardSection card (some 2025) [("May 1 May 2 Netflix.Com 549.00").data] =
      [{ card := card
         transaction_date := ("May 1 2025").data
         post_date := ("May 2 2025").data
         description := ("Netflix.Com").data
         amount := decOf 54900 2
         currency := phpCurrency
         foreign_amount := none }] := rfl

/-- Claim C5 (two-line foreign-currency round-trip): the line
`October 3 October 4 Audible*T90n24ln1 Amzn.Com/Bill US` immediately
followed by `U.S.Dollar 14.95 866.84` yields, for any card section,
exactly one record (both lines consumed) whose amount is the
home-currency 866.84 (the second number of the currency line), whose
foreign amount is 14.95 (the first number), and whose currency is USD,
the code mapped from the country code US. -/
theorem claim_C5_two_line_round_trip (card : Line) :
    parseCardSection card (some 2025)
      [("October 3 October 4 Audible*T90n24ln1 Amzn.Com/Bill US").data,
       ("U.S.Dollar 14.95 866.84").data] =
      [{ card := card
         transaction_date := ("October 3 2025").data
         post_date := ("October 4 2025").data
         description := ("Audible*T90n24ln1 Amzn.Com/Bill").data
         amount := decOf 86684 2
         currency := ("USD").data
         foreign_amount := some (decOf 1495 2) }] := rfl

/-- Claim C1 (year resolution, code bug): `_determine_transaction_year`
itself implements the documented rule — December with statement month
January resolves to the previous year, January resolves to the statement
year — but `_parse_single_line` (and `_parse_two_lines`) call it without a
statement month (`parse_transactions` has no statement-month parameter at
all), so in the parsing pipeline a December date of a January-2025
statement resolves to 2025, not 2024 as the specification and the
repository's own integration test require. -/
theorem claim_C1_year_rollover (card : Line) :
    determineTransactionYear (("December").data) (some 2025) (some 1) = some 2024 ∧
    determineTransactionYear (("January").data) (some 2025) (some 1) = some 2025 ∧
    parseSingleLine (("December 31 December 31 Holiday Shop 100.00").data) card
        (some 2025) =
      some
        { card := card
          transaction_date := ("December 31 2025").data
          post_date := ("December 31 2025").data
          description := ("Holiday Shop").data
          amount := decOf 10000 2
          currency := phpCurrency
          foreign_amount := none } :=
  ⟨rfl, rfl, rfl⟩

/-- Claim C2, counterexample: the country code `JP` is not in the fixed
table (only `US` and `SG` are), yet the two-line parser silently emits a
record with the guessed currency `NZD` instead of surfacing the record
for review. -/
theorem claim_C2_counterexample :
    (parseTwoLines (("January 5 January 6 Tokyo Shop JP").data)
        (("U.S.Dollar 10.00 600.00").data) goldName (some 2025)).map Txn.currency =
      some (("NZD").data) := by decide

/-- Claim C2, amended: every record emitted by the two-line parser carries
one of the three hard-coded currencies, and any matched country code other
than `US` and `SG` — known or unknown — is silently assigned `NZD`; no
distinct reviewable condition exists. -/
theorem claim_C2_amended (l1 l2 card : Line) (y : Option Int) (t : Txn)
    (h : parseTwoLines l1 l2 card y = some t) :
    (t.currency = ("USD").data ∨ t.currency = ("SGD").data ∨
      t.currency = ("NZD").data) ∧
    (∀ m, matchTwoLine1 l1 = some m → m.2.2.2.2.2 ≠ usCode →
      m.2.2.2.2.2 ≠ sgCode → t.currency = ("NZD").data) := by
  cases hm1 : matchTwoLine1 l1 with
  | none => rw [parseTwoLines, hm1] at h; exact absurd h (by simp)
  | some m =>
    cases hm2 : matchCurrencyLine l2 with
    | none =>
      rw [parseTwoLines, hm1, hm2] at h
      obtain ⟨m1, n1, m2, n2, desc, code⟩ := m
      exact absurd h (by simp)
    | some g =>
      obtain ⟨m1, n1, m2, n2, desc, code⟩ := m
      obtain ⟨g1, g2⟩ := g
      rw [parseTwoLines, hm1, hm2] at h
      dsimp only at h
      cases hf : parseFloatDec (g1.filter (fun c => c ≠ ',')) with
      | none => rw [hf] at h; exact absurd h (by simp)
      | some fq =>
        rw [hf] at h
        dsimp only at h
        have ht : t = _ := (Option.some.inj h).symm
        subst ht
        constructor
        · dsimp only
          by_cases hus : code = usCode
          · rw [if_pos hus]; exact Or.inl rfl
          · rw [if_neg hus]
            by_cases hsg : code = sgCode
            · rw [if_pos hsg]; exact Or.inr (Or.inl rfl)
            · rw [if_neg hsg]; exact Or.inr (Or.inr rfl)
        · intro m' hm' hus hsg
          have hmm : (m1, n1, m2, n2, desc, code) = m' := Option.some.inj hm'
          subst hmm
          dsimp only at hus hsg ⊢
          rw [if_neg hus, if_neg hsg]

/-- Claim C2, amended, witness at the concrete country code `DE`. -/
theorem claim_C2_amended_witness :
    parseTwoLines (("October 1 October 2 Berlin Shop DE").data)
        (("U.S.Dollar 20.00 1,200.00").data) goldName (some 2025) =
      some
        { card := goldName
          transaction_date := ("October 1 2025").data
          post_date := ("October 2 2025").data
          description := ("Berlin Shop").data
          amount := decOf 120000 2
          currency := ("NZD").data
          foreign_amount := some (decOf 20 0) } ∧
    ({ card := goldName
       transaction_date := ("October 1 2025").data
       post_date := ("October 2 2025").data
       description := ("Berlin Shop").data
       amount := decOf 120000 2
       currency := ("NZD").data
       foreign_amount := some (decOf 20 0) } : Txn).currency = ("NZD").data := by
  have h : parseTwoLines (("October 1 October 2 Berlin Shop DE").data)
      (("U.S.Dollar 20.00 1,200.00").data) goldName (some 2025) =
      some
        { card := goldName
          transaction_date := ("October 1 2025").data
          post_date := ("October 2 2025").data
          description := ("Berlin Shop").data
          amount := decOf 120000 2
          currency := ("NZD").data
          foreign_amount := some (decOf 20 0) } := by decide
  refine ⟨h, ?_⟩
  exact (claim_C2_amended _ _ _ _ _ h).2
    ((("October").data, ("1").data, ("October").data, ("2").data,
      ("Berlin Shop").data, ("DE").data))
    (by decide) (by decide) (by decide)

/-- Claim C7 (fallback guarantee): classifying an empty description
short-circuits to the `Manual Review` sentinel with confidence 0, for
every mapper environment (hence for every behaviour of the fuzzy
matcher); the embedding is total, so no exception is possible. -/
theorem claim_C7_empty_description_fallback (env : MapperEnv) :
    mapDescriptionToAccount env [] = manualReview ∧
    getMappingConfidence env [] = (manualReview, 0) :=
  ⟨rfl, rfl⟩

/-- Claim C6 (classification layering): whenever some known-mapping key is
a case-insensitive substring of the description, both classification
entry points return the account of the first such key in table order with
maximum confidence 100, for every mapper environment — in particular no
keyword rule, fuzzy result or default bucket can override it. -/
theorem claim_C6_known_pattern_precedence (env : MapperEnv) (desc : Line)
    (p : Line × Line) (h : findKnown desc = some p) :
    mapDescriptionToAccount env desc = p.2 ∧
    getMappingConfidence env desc = (p.2, 100) := by
  have hne : desc.isEmpty = false := by
    cases desc with
    | nil =>
      rw [show findKnown ([] : Line) = none from by decide] at h
      exact absurd h (by simp)
    | cons a l => rfl
  constructor
  · simp [mapDescriptionToAccount, hne, h]
  · simp [getMappingConfidence, hne, h]

/-- Claim C6, witness: `Netflix.Com at a cafe` contains the known pattern
`Netflix.Com` and the keyword `cafe`; the known pattern wins with
confidence 100. -/
theorem claim_C6_witness :
    findKnown (("Netflix.Com at a cafe").data) =
      some ((("Netflix.Com").data), ("Expenses:Entertainment:Music/Movies").data) ∧
    mapDescriptionToAccount ⟨false, [], fun _ _ => ([], 0)⟩
        (("Netflix.Com at a cafe").data) =
      ("Expenses:Entertainment:Music/Movies").data ∧
    getMappingConfidence ⟨false, [], fun _ _ => ([], 0)⟩
        (("Netflix.Com at a cafe").data) =
      ((("Expenses:Entertainment:Music/Movies").data), 100) := by
  have h : findKnown (("Netflix.Com at a cafe").data) =
      some ((("Netflix.Com").data), ("Expenses:Entertainment:Music/Movies").data) := by
    decide
  exact ⟨h, (claim_C6_known_pattern_precedence _ _ _ h).1,
    (claim_C6_known_pattern_precedence _ _ _ h).2⟩

/-- A successful exact prefix match decomposes the input. -/
theorem matchExact_append (p : Line) :
    ∀ s r, matchExact p s = some r → s = p ++ r := by
  induction p with
  | nil => intro s r h; exact (Option.some.inj h) ▸ rfl
  | cons c cs ih =>
    intro s r h
    cases s with
    | nil => exact absurd h (by simp [matchExact])
    | cons x xs =>
      rw [matchExact] at h
      by_cases hx : x = c
      · rw [if_pos hx] at h
        rw [hx, List.cons_append]
        exact congrArg (c :: ·) (ih xs r h)
      · rw [if_neg hx] at h
        exact absurd h (by simp)

/-- Claim C10 (implicit, canonical currency-line token): the two-line
parser emits a record only when the second line literally begins with
`U.S.Dollar` — whatever the country code of the first line resolves to —
and a conversion line naming another currency, such as
`Singapore Dollar 14.95 866.84` after an `SG`-coded line, produces no
record at all. -/
theorem claim_C10_usdollar_token_required :
    (∀ l1 l2 card y t, parseTwoLines l1 l2 card y = some t →
      ∃ r, l2 = usdCanon ++ r) ∧
    parseCardSection goldName (some 2025)
      [("October 3 October 4 City Shop SG").data,
       ("Singapore Dollar 14.95 866.84").data] = [] := by
  constructor
  · intro l1 l2 card y t h
    cases hme : matchExact usdCanon l2 with
    | some r1 => exact ⟨r1, matchExact_append usdCanon l2 r1 hme⟩
    | none =>
      exfalso
      have hcl : matchCurrencyLine l2 = none := by
        rw [matchCurrencyLine, hme]; rfl
      cases hm1 : matchTwoLine1 l1 with
      | none => rw [parseTwoLines, hm1] at h; exact absurd h (by simp)
      | some m =>
        obtain ⟨m1, n1, m2, n2, desc, code⟩ := m
        rw [parseTwoLines, hm1, hcl] at h
        exact absurd h (by simp)
  · decide

/-- Claim C10, witness: a US-coded two-line transaction parses, and its
currency line indeed begins with the canonical token. -/
theorem claim_C10_witness :
    parseTwoLines (("May 1 May 2 Coffee Shop US").data)
        (("U.S.Dollar 5.00 300.00").data) ecreditName (some 2025) =
      some
        { card := ecreditName
          transaction_date := ("May 1 2025").data
          post_date := ("May 2 2025").data
          description := ("Coffee Shop").data
          amount := decOf 30000 2
          currency := ("USD").data
          foreign_amount := some (decOf 5 0) } ∧
    (∃ r, (("U.S.Dollar 5.00 300.00").data : Line) = usdCanon ++ r) := by
  have h : parseTwoLines (("May 1 May 2 Coffee Shop US").data)
      (("U.S.Dollar 5.00 300.00").data) ecreditName (some 2025) =
      some
        { card := ecreditName
          transaction_date := ("May 1 2025").data
          post_date := ("May 2 2025").data
          description := ("Coffee Shop").data
          amount := decOf 30000 2
          currency := ("USD").data
          foreign_amount := some (decOf 5 0) } := by decide
  exact ⟨h, claim_C10_usdollar_token_required.1 _ _ _ _ _ h⟩

/-!
Deduplication (`TransactionParser._remove_duplicates`).
-/

/-- Membership in the deduplication loop: a record survives exactly when
its key is not already seen and it is the first record of the list with
its key. -/
theorem mem_removeDuplicatesAux (t : Txn) :
    ∀ (ts : List Txn) (seen : List (Line × Line × Line × Dec × Line)),
      (t ∈ removeDuplicatesAux seen ts ↔
        txnKey t ∉ seen ∧
          ts.find? (fun x => decide (txnKey x = txnKey t)) = some t) := by
  intro ts
  induction ts with
  | nil => intro seen; simp [removeDuplicatesAux]
  | cons x ts ih =>
    intro seen
    rw [removeDuplicatesAux]
    by_cases hxs : txnKey x ∈ seen
    · rw [if_pos hxs]
      by_cases hk : txnKey x = txnKey t
      · rw [List.find?_cons_of_pos _ (by simp [hk])]
        constructor
        · intro hmem
          have h1 := ((ih seen).mp hmem).1
          rw [← hk] at h1
          exact absurd hxs h1
        · rintro ⟨hns, hxt⟩
          rw [← hk] at hns
          exact absurd hxs hns
      · rw [List.find?_cons_of_neg _ (by simp [hk])]
        exact ih seen
    · rw [if_neg hxs]
      by_cases hk : txnKey x = txnKey t
      · rw [List.find?_cons_of_pos _ (by simp [hk])]
        constructor
        · intro hmem
          rcases List.mem_cons.mp hmem with hxt | htail
          · refine ⟨?_, by rw [hxt]⟩
            rw [← hk]
            exact hxs
          · have h1 := ((ih (txnKey x :: seen)).mp htail).1
            exact absurd (by rw [← hk]; exact List.mem_cons_self _ _) h1
        · rintro ⟨hns, hxt⟩
          exact List.mem_cons.mpr (Or.inl (Option.some.inj hxt).symm)
      · rw [List.find?_cons_of_neg _ (by simp [hk])]
        constructor
        · intro hmem
          rcases List.mem_cons.mp hmem with hxt | htail
          · exact False.elim (hk (by rw [hxt]))
          · have h2 := (ih (txnKey x :: seen)).mp htail
            refine ⟨fun hc => h2.1 (List.mem_cons_of_mem _ hc), h2.2⟩
        · rintro ⟨hns, hfind⟩
          refine List.mem_cons.mpr (Or.inr ((ih (txnKey x :: seen)).mpr ⟨?_, hfind⟩))
          intro hc
          rcases List.mem_cons.mp hc with hc1 | hc2
          · exact hk hc1.symm
          · exact hns hc2

/-- The deduplication loop never lengthens the list. -/
theorem removeDuplicatesAux_length :
    ∀ (ts : List Txn) (seen : List (Line × Line × Line × Dec × Line)),
      (removeDuplicatesAux seen ts).length ≤ ts.length := by
  intro ts
  induction ts with
  | nil => intro seen; simp [removeDuplicatesAux]
  | cons x ts ih =>
    intro seen
    rw [removeDuplicatesAux]
    by_cases hxs : txnKey x ∈ seen
    · rw [if_pos hxs]
      exact Nat.le_succ_of_le (ih seen)
    · rw [if_neg hxs]
      exact Nat.succ_le_succ (ih (txnKey x :: seen))

/-- The deduplication loop output has pairwise distinct keys. -/
theorem removeDuplicatesAux_pairwise :
    ∀ (ts : List Txn) (seen : List (Line × Line × Line × Dec × Line)),
      (removeDuplicatesAux seen ts).Pairwise (fun a b => txnKey a ≠ txnKey b) := by
  intro ts
  induction ts with
  | nil => intro seen; simp [removeDuplicatesAux]
  | cons x ts ih =>
    intro seen
    rw [removeDuplicatesAux]
    by_cases hxs : txnKey x ∈ seen
    · rw [if_pos hxs]; exact ih seen
    · rw [if_neg hxs]
      refine List.pairwise_cons.mpr ⟨?_, ih (txnKey x :: seen)⟩
      intro b hb hkb
      exact ((mem_removeDuplicatesAux b ts (txnKey x :: seen)).mp hb).1
        (hkb ▸ List.mem_cons_self _ _)

/-- The deduplication loop is the identity on lists whose keys are fresh
and pairwise distinct. -/
theorem removeDuplicatesAux_id :
    ∀ (ts : List Txn) (seen : List (Line × Line × Line × Dec × Line)),
      (∀ x ∈ ts, txnKey x ∉ seen) →
      ts.Pairwise (fun a b => txnKey a ≠ txnKey b) →
      removeDuplicatesAux seen ts = ts := by
  intro ts
  induction ts with
  | nil => intro seen _ _; rfl
  | cons x ts ih =>
    intro seen hfresh hpw
    rw [removeDuplicatesAux, if_neg (hfresh x (List.mem_cons_self _ _))]
    obtain ⟨hhead, htailpw⟩ := List.pairwise_cons.mp hpw
    refine congrArg (x :: ·) (ih (txnKey x :: seen) ?_ htailpw)
    intro y hy hc
    rcases List.mem_cons.mp hc with hc1 | hc2
    · exact hhead y hy hc1.symm
    · exact hfresh y (List.mem_cons_of_mem _ hy) hc2

/-- Claim C8 (deduplication invariants): deduplication is idempotent,
never lengthens the list, and a record is retained exactly when it is the
first record in scan order bearing its identity key
(transaction date, post date, description, amount, currency). -/
theorem claim_C8_dedup_invariants (T : List Txn) :
    removeDuplicates (removeDuplicates T) = removeDuplicates T ∧
    (removeDuplicates T).length ≤ T.length ∧
    (∀ t, t ∈ removeDuplicates T ↔
      T.find? (fun x => decide (txnKey x = txnKey t)) = some t) := by
  refine ⟨?_, removeDuplicatesAux_length T [], ?_⟩
  · exact removeDuplicatesAux_id (removeDuplicatesAux [] T) []
      (fun x _ => by simp) (removeDuplicatesAux_pairwise T [])
  · intro t
    rw [removeDuplicates, mem_removeDuplicatesAux]
    simp

/-!
Section splitting (`TransactionParser._split_by_cards`).  The scanning
loop is re-expressed as a fold over a per-line transition so that the
state after a prefix of the lines can be named.
-/

/-- The per-line transition of the `_split_by_cards` loop. -/
def splitStep (st : Option Line × List Line × Sections) (l : Line) :
    Option Line × List Line × Sections :=
  if isGoldHeader l then (some goldName, [l], flushSec st.1 st.2.1 st.2.2)
  else if isEcreditHeader l then (some ecreditName, [l], flushSec st.1 st.2.1 st.2.2)
  else if st.1.isSome then (st.1, st.2.1 ++ [l], st.2.2)
  else st

/-- The scanning loop is the fold of the transition followed by the final
flush. -/
theorem splitGo_eq_foldl :
    ∀ (lines : List Line) (cur : Option Line) (acc : List Line) (secs : Sections),
      splitGo cur acc secs lines =
        (fun st => flushSec st.1 st.2.1 st.2.2)
          (List.foldl splitStep (cur, acc, secs) lines) := by
  intro lines
  induction lines with
  | nil => intro cur acc secs; rfl
  | cons l ls ih =>
    intro cur acc secs
    rw [splitGo, List.foldl_cons]
    by_cases hgl : isGoldHeader l
    · rw [if_pos hgl, splitStep, if_pos hgl, ih]
    · rw [if_neg hgl]
      by_cases hel : isEcreditHeader l
      · rw [if_pos hel, splitStep, if_neg hgl, if_pos hel, ih]
      · rw [if_neg hel]
        by_cases hsome : (cur.isSome : Bool)
        · rw [if_pos hsome, splitStep, if_neg hgl, if_neg hel, if_pos hsome]
          exact ih _ _ _
        · rw [if_neg hsome, splitStep, if_neg hgl, if_neg hel, if_neg hsome]
          exact ih _ _ _

/-- No key of the section dictionary is the gold label. -/
def KeysNoGold (secs : Sections) : Prop :=
  ∀ p ∈ secs, p.1 ≠ goldName

/-- Appending a non-gold binding leaves the gold lookup unchanged. -/
theorem find?_gold_append (secs : Sections) (k : Line) (v : List Line)
    (hk : k ≠ goldName) :
    (secs ++ [(k, v)]).find? (fun p => decide (p.1 = goldName)) =
      secs.find? (fun p => decide (p.1 = goldName)) := by
  induction secs with
  | nil => simp [hk]
  | cons p rest ih =>
    rw [List.cons_append]
    by_cases hpg : p.1 = goldName
    · rw [List.find?_cons_of_pos _ (by simp [hpg]),
        List.find?_cons_of_pos _ (by simp [hpg])]
    · rw [List.find?_cons_of_neg _ (by simp [hpg]),
        List.find?_cons_of_neg _ (by simp [hpg])]
      exact ih

/-- Updating a non-gold key leaves the gold lookup unchanged. -/
theorem upsert_find_gold (secs : Sections) (k : Line) (v : List Line)
    (hk : k ≠ goldName) :
    (upsert secs k v).find? (fun p => decide (p.1 = goldName)) =
      secs.find? (fun p => decide (p.1 = goldName)) := by
  rw [upsert]
  by_cases hany : secs.any (fun p => p.1 = k)
  · rw [if_pos hany]
    clear hany
    induction secs with
    | nil => rfl
    | cons p rest ih =>
      rw [List.map_cons]
      by_cases hpk : p.1 = k
      · rw [if_pos hpk]
        rw [List.find?_cons_of_neg _ (by simp [hk]),
          List.find?_cons_of_neg _ (by simp [hpk ▸ hk])]
        exact ih
      · rw [if_neg hpk]
        by_cases hpg : p.1 = goldName
        · rw [List.find?_cons_of_pos _ (by simp [hpg]),
            List.find?_cons_of_pos _ (by simp [hpg])]
        · rw [List.find?_cons_of_neg _ (by simp [hpg]),
            List.find?_cons_of_neg _ (by simp [hpg])]
          exact ih
  · rw [if_neg hany]
    exact find?_gold_append secs k v hk

/-- Updating a non-gold key preserves gold-freeness of the keys. -/
theorem upsert_keysNoGold (secs : Sections) (k : Line) (v : List Line)
    (hk : k ≠ goldName) (hng : KeysNoGold secs) :
    KeysNoGold (upsert secs k v) := by
  rw [upsert]
  by_cases hany : secs.any (fun p => p.1 = k)
  · rw [if_pos hany]
    intro p hp
    rcases List.mem_map.mp hp with ⟨q, hq, hqp⟩
    by_cases hqk : q.1 = k
    · rw [if_pos hqk] at hqp; rw [← hqp]; exact hk
    · rw [if_neg hqk] at hqp; rw [← hqp]; exact hng q hq
  · rw [if_neg hany]
    intro p hp
    rcases List.mem_append.mp hp with hp1 | hp2
    · exact hng p hp1
    · rw [List.mem_singleton.mp hp2]; exact hk

/-- Flushing a non-gold current section leaves the gold lookup unchanged. -/
theorem flushSec_find_gold (cur : Option Line) (acc : List Line) (secs : Sections)
    (hc : cur ≠ some goldName) :
    (flushSec cur acc secs).find? (fun p => decide (p.1 = goldName)) =
      secs.find? (fun p => decide (p.1 = goldName)) := by
  cases cur with
  | none => rfl
  | some c =>
    rw [flushSec]
    by_cases ha : acc.isEmpty
    · rw [if_pos ha]
    · rw [if_neg ha]
      exact upsert_find_gold secs c acc (fun he => hc (he ▸ rfl))

/-- Flushing a non-gold current section preserves gold-freeness. -/
theorem flushSec_keysNoGold (cur : Option Line) (acc : List Line) (secs : Sections)
    (hc : cur ≠ some goldName) (hng : KeysNoGold secs) :
    KeysNoGold (flushSec cur acc secs) := by
  cases cur with
  | none => exact hng
  | some c =>
    rw [flushSec]
    by_cases ha : acc.isEmpty
    · rw [if_pos ha]; exact hng
    · rw [if_neg ha]
      exact upsert_keysNoGold secs c acc (fun he => hc (he ▸ rfl)) hng

/-- Processing gold-free lines from a non-gold state leaves the gold
lookup of the resulting dictionary unchanged. -/
theorem splitGo_find_gold :
    ∀ (lines : List Line) (cur : Option Line) (acc : List Line) (secs : Sections),
      (∀ l ∈ lines, isGoldHeader l = false) → cur ≠ some goldName →
      (splitGo cur acc secs lines).find? (fun p => decide (p.1 = goldName)) =
        secs.find? (fun p => decide (p.1 = goldName)) := by
  intro lines
  induction lines with
  | nil =>
    intro cur acc secs _ hc
    exact flushSec_find_gold cur acc secs hc
  | cons l ls ih =>
    intro cur acc secs hfree hc
    have hgl : isGoldHeader l = false := hfree l (List.mem_cons_self _ _)
    have hfree' : ∀ x ∈ ls, isGoldHeader x = false :=
      fun x hx => hfree x (List.mem_cons_of_mem _ hx)
    rw [splitGo, hgl]
    rw [if_neg (by simp)]
    by_cases hel : isEcreditHeader l
    · rw [if_pos hel]
      rw [ih _ _ _ hfree' (by simp [ecreditName, goldName])]
      exact flushSec_find_gold cur acc secs hc
    · rw [if_neg hel]
      cases cur with
      | some c => exact ih _ _ _ hfree' hc
      | none => exact ih _ _ _ hfree' hc

/-- The state invariant while scanning gold-free lines: the current card
is not gold and no dictionary key is gold. -/
theorem foldl_pre_inv :
    ∀ (pre : List Line) (st : Option Line × List Line × Sections),
      (∀ l ∈ pre, isGoldHeader l = false) →
      st.1 ≠ some goldName → KeysNoGold st.2.2 →
      (List.foldl splitStep st pre).1 ≠ some goldName ∧
        KeysNoGold (List.foldl splitStep st pre).2.2 := by
  intro pre
  induction pre with
  | nil => intro st _ hc hng; exact ⟨hc, hng⟩
  | cons l ls ih =>
    intro st hfree hc hng
    have hgl : isGoldHeader l = false := hfree l (List.mem_cons_self _ _)
    have hfree' : ∀ x ∈ ls, isGoldHeader x = false :=
      fun x hx => hfree x (List.mem_cons_of_mem _ hx)
    rw [List.foldl_cons]
    refine ih (splitStep st l) hfree' ?_ ?_
    · rw [splitStep, hgl, if_neg (by simp)]
      by_cases hel : isEcreditHeader l
      · rw [if_pos hel]
        simp [ecreditName, goldName]
      · rw [if_neg hel]
        by_cases hsome : (st.1.isSome : Bool)
        · rw [if_pos hsome]; exact hc
        · rw [if_neg hsome]; exact hc
    · rw [splitStep, hgl, if_neg (by simp)]
      by_cases hel : isEcreditHeader l
      · rw [if_pos hel]
        exact flushSec_keysNoGold st.1 st.2.1 st.2.2 hc hng
      · rw [if_neg hel]
        by_cases hsome : (st.1.isSome : Bool)
        · rw [if_pos hsome]; exact hng
        · rw [if_neg hsome]; exact hng

/-- Scanning a block of non-header lines accumulates them into the
current section. -/
theorem foldl_mid :
    ∀ (mid : List Line) (c : Line) (acc : List Line) (secs : Sections),
      (∀ l ∈ mid, isGoldHeader l = false ∧ isEcreditHeader l = false) →
      List.foldl splitStep (some c, acc, secs) mid = (some c, acc ++ mid, secs) := by
  intro mid
  induction mid with
  | nil => intro c acc secs _; simp
  | cons l ls ih =>
    intro c acc secs hmid
    have hl := hmid l (List.mem_cons_self _ _)
    rw [List.foldl_cons, splitStep, hl.1, if_neg (by simp), hl.2, if_neg (by simp),
      if_pos (by simp)]
    rw [ih c (acc ++ [l]) secs (fun x hx => hmid x (List.mem_cons_of_mem _ hx))]
    simp

/-- Inserting the gold binding into a gold-free dictionary makes it the
value found for the gold key. -/
theorem upsert_gold_found (secs : Sections) (v : List Line) (hng : KeysNoGold secs) :
    (upsert secs goldName v).find? (fun p => decide (p.1 = goldName)) =
      some (goldName, v) := by
  rw [upsert]
  have hany : secs.any (fun p => p.1 = goldName) = false := by
    rw [List.any_eq_false]
    intro p hp
    simpa using hng p hp
  rw [if_neg (by rw [hany]; exact fun hc => Bool.false_ne_true hc)]
  induction secs with
  | nil => simp
  | cons p rest ih =>
    rw [List.cons_append,
      List.find?_cons_of_neg _ (by simp [hng p (List.mem_cons_self _ _)])]
    refine ih (fun q hq => hng q (List.mem_cons_of_mem _ hq)) ?_
    rw [List.any_eq_false] at hany ⊢
    intro q hq
    exact hany q (List.mem_cons_of_mem _ hq)

/-- A successful lookup means the dictionary is non-empty. -/
theorem find?_ne_nil {α : Type} (p : α → Bool) (l : List α) (x : α)
    (h : l.find? p = some x) : l ≠ [] := by
  cases l with
  | nil => exact absurd h (by simp)
  | cons a as => exact fun hc => List.noConfusion hc

/-- Claim C9, counterexample: with a repeated gold header, the line `foo`
lies after a recognized gold-rewards header and before the next
recognized header, yet the returned dictionary's gold section omits it
(the second flush overwrites the first block), so `foo` is attributed to
no section at all. -/
theorem claim_C9_counterexample :
    splitByCards
        [("BPI GOLD REWARDS CARD").data, ("foo").data,
         ("BPI GOLD REWARDS CARD").data, ("bar").data] =
      [(goldName, [("BPI GOLD REWARDS CARD").data, ("bar").data])] ∧
    (∀ sec ∈ splitByCards
        [("BPI GOLD REWARDS CARD").data, ("foo").data,
         ("BPI GOLD REWARDS CARD").data, ("bar").data],
      (("foo").data : Line) ∉ sec.2) := by
  constructor
  · decide
  · decide

/-- Claim C9, amended: provided the gold-rewards header is recognized
exactly once, every line between it and the next recognized header (or
the end of the text) lands in the gold-rewards section, whose content is
exactly the header followed by those lines — whitespace variation is
absorbed by the normalization inside header recognition; and a line whose
normalized form matches the gold patterns is always classified as a gold
header (the gold check precedes the e-credit check), so gold wins any
tie. -/
theorem claim_C9_amended (pre mid post : List Line) (h : Line)
    (hg : isGoldHeader h = true)
    (hpre : ∀ l ∈ pre, isGoldHeader l = false)
    (hmid : ∀ l ∈ mid, isGoldHeader l = false ∧ isEcreditHeader l = false)
    (hpost : ∀ l ∈ post, isGoldHeader l = false)
    (hpost2 : post = [] ∨ ∃ h2 rest, post = h2 :: rest ∧ isEcreditHeader h2 = true) :
    ((splitByCards (pre ++ h :: (mid ++ post))).find?
        (fun p => decide (p.1 = goldName)) = some (goldName, h :: mid)) ∧
    (∀ l cur acc secs ls, isGoldHeader l = true →
      splitGo cur acc secs (l :: ls) =
        splitGo (some goldName) [l] (flushSec cur acc secs) ls) := by
  constructor
  · have hkey : (splitGo none [] [] (pre ++ h :: (mid ++ post))).find?
        (fun p => decide (p.1 = goldName)) = some (goldName, h :: mid) := by
      rw [splitGo_eq_foldl, List.foldl_append, List.foldl_cons]
      obtain ⟨hc1, hng1⟩ :=
        foldl_pre_inv pre (none, [], []) hpre (by simp) (by intro p hp; cases hp)
      set st1 := List.foldl splitStep (none, [], []) pre with hst1
      have hstep : splitStep st1 h = (some goldName, [h], flushSec st1.1 st1.2.1 st1.2.2) := by
        rw [splitStep, if_pos hg]
      rw [hstep]
      have hng2 : KeysNoGold (flushSec st1.1 st1.2.1 st1.2.2) :=
        flushSec_keysNoGold st1.1 st1.2.1 st1.2.2 hc1 hng1
      set secs1 := flushSec st1.1 st1.2.1 st1.2.2 with hsecs1
      rw [List.foldl_append, foldl_mid mid goldName [h] secs1 hmid]
      rcases hpost2 with hpe | ⟨h2, rest, hpeq, he2⟩
      · rw [hpe, List.foldl_nil]
        dsimp only
        have : flushSec (some goldName) ([h] ++ mid) secs1 =
            upsert secs1 goldName ([h] ++ mid) := by
          rw [flushSec, if_neg (by simp)]
        rw [this]
        exact upsert_gold_found secs1 ([h] ++ mid) hng2
      · rw [hpeq, List.foldl_cons]
        have hg2 : isGoldHeader h2 = false :=
          hpost h2 (hpeq ▸ List.mem_cons_self _ _)
        have hstep2 : splitStep (some goldName, [h] ++ mid, secs1) h2 =
            (some ecreditName, [h2], upsert secs1 goldName ([h] ++ mid)) := by
          rw [splitStep, hg2, if_neg (by simp), if_pos he2]
          rw [flushSec, if_neg (by simp)]
        rw [hstep2]
        have hrest : ∀ l ∈ rest, isGoldHeader l = false :=
          fun l hl => hpost l (hpeq ▸ List.mem_cons_of_mem _ hl)
        rw [← splitGo_eq_foldl]
        rw [splitGo_find_gold rest (some ecreditName) [h2]
          (upsert secs1 goldName ([h] ++ mid)) hrest (by simp [ecreditName, goldName])]
        exact upsert_gold_found secs1 ([h] ++ mid) hng2
    rw [splitByCards]
    rw [if_neg ?hne]
    · exact hkey
    case hne =>
      have := find?_ne_nil _ _ _ hkey
      simp only [List.isEmpty_eq_true]
      intro hc
      exact this hc
  · intro l cur acc secs ls hl
    rw [splitGo, if_pos hl]

/-- Claim C9, amended, witness: a gold header followed by one transaction
line, with nothing else, produces a gold section holding exactly those
two lines. -/
theorem claim_C9_amended_witness :
    (splitByCards
        [("BPI GOLD REWARDS CARD").data, ("May 1 May 2 Netflix.Com 549.00").data]).find?
        (fun p => decide (p.1 = goldName)) =
      some (goldName,
        [("BPI GOLD REWARDS CARD").data, ("May 1 May 2 Netflix.Com 549.00").data]) := by
  have h := (claim_C9_amended [] [("May 1 May 2 Netflix.Com 549.00").data] []
    (("BPI GOLD REWARDS CARD").data) (by decide)
    (by intro l hl; cases hl)
    (by intro l hl; rcases List.mem_singleton.mp hl with rfl; exact ⟨by decide, by decide⟩)
    (by intro l hl; cases hl)
    (Or.inl rfl)).1
  simpa using h

/-!
Idempotence of the whitespace-cleanup stage of `normalize_line`.
-/

/-- A true negation gives falsity of the underlying boolean. -/
theorem bnot_true (b : Bool) (h : (!b) = true) : b = false := by
  cases b
  · rfl
  · exact absurd h (by simp)

/-- Clean strings have clean tails. -/
theorem cleanB_tail (c : Char) (cs : Line) (h : cleanB (c :: cs) = true) :
    cleanB cs = true := by
  cases cs with
  | nil => rfl
  | cons d r => exact (Bool.and_eq_true_iff.mp h).2

/-- Clean strings do not end in whitespace. -/
theorem cleanB_lastNW : ∀ s, cleanB s = true → lastNW s = true := by
  intro s
  induction s with
  | nil => intro _; rfl
  | cons c cs ih =>
    intro h
    cases cs with
    | nil => exact h
    | cons d r =>
      rw [lastNW]
      exact ih (cleanB_tail c _ h)

/-- Prepending a non-whitespace character preserves cleanliness. -/
theorem cleanB_cons_nonspace (c : Char) (t : Line) (hc : isSpaceChar c = false)
    (ht : cleanB t = true) : cleanB (c :: t) = true := by
  cases t with
  | nil => rw [cleanB, hc]; rfl
  | cons d r =>
    rw [cleanB, Bool.and_eq_true_iff]
    exact ⟨by rw [hc]; rfl, ht⟩

/-- Prepending a space before a clean string with non-whitespace head
preserves cleanliness. -/
theorem cleanB_cons_space (d : Char) (r : Line) (hd : isSpaceChar d = false)
    (ht : cleanB (d :: r) = true) : cleanB (' ' :: d :: r) = true := by
  rw [cleanB, Bool.and_eq_true_iff]
  refine ⟨?_, ht⟩
  rw [hd]
  rfl

/-- Leading-whitespace removal is the identity on strings with
non-whitespace head. -/
theorem dropWhile_id_of_headNW (s : Line) (h : headNW s = true) :
    s.dropWhile isSpaceChar = s := by
  cases s with
  | nil => rfl
  | cons c cs =>
    rw [List.dropWhile_cons]
    rw [show isSpaceChar c = false from by
      rw [headNW] at h; exact bnot_true _ h]
    rfl

/-- Trailing-whitespace removal is the identity on strings with
non-whitespace last character. -/
theorem dropTrailingWS_id_of_lastNW : ∀ s, lastNW s = true → dropTrailingWS s = s := by
  intro s
  induction s with
  | nil => intro _; rfl
  | cons c cs ih =>
    intro h
    cases cs with
    | nil =>
      rw [dropTrailingWS]
      rw [show dropTrailingWS [] = [] from rfl]
      rw [lastNW] at h
      simp [bnot_true _ h]
    | cons d r =>
      rw [lastNW] at h
      rw [dropTrailingWS, ih h]
      simp

/-- Whitespace collapse is the identity on clean strings. -/
theorem collapseGo_id_of_clean :
    ∀ s, cleanB s = true →
      collapseGo false s = s ∧ (headNW s = true → collapseGo true s = s) := by
  intro s
  induction s with
  | nil => exact fun _ => ⟨rfl, fun _ => rfl⟩
  | cons c cs ih =>
    intro h
    by_cases hws : isSpaceChar c = true
    · cases cs with
      | nil =>
        rw [cleanB, hws] at h
        exact absurd h (by simp)
      | cons d r =>
        rw [cleanB, Bool.and_eq_true_iff] at h
        have h1 := h.1
        rw [hws] at h1
        simp only [Bool.not_true, Bool.false_or, Bool.and_eq_true_iff] at h1
        obtain ⟨hce, hdns⟩ := h1
        have hdns' : isSpaceChar d = false := by
          cases hh : isSpaceChar d
          · rfl
          · rw [hh] at hdns; exact absurd hdns (by simp)
        constructor
        · rw [collapseGo, if_pos hws]
          rw [if_neg (by simp)]
          have := (ih h.2).2 (by rw [headNW, hdns']; rfl)
          rw [this]
          have hce' : c = ' ' := by
            cases hh : decide (c = ' ')
            · rw [hh] at hce; exact absurd hce (by simp)
            · exact of_decide_eq_true hh
          rw [hce']
        · intro hhead
          rw [headNW, hws] at hhead
          exact absurd hhead (by simp)
    · have hws' : isSpaceChar c = false := by
        cases hh : isSpaceChar c
        · rfl
        · exact absurd hh hws
      have htail := cleanB_tail c cs h
      constructor
      · rw [collapseGo, if_neg hws]
        rw [(ih htail).1]
      · intro _
        rw [collapseGo, if_neg hws]
        rw [(ih htail).1]

/-- The true-flag collapse returns the empty string exactly on all-space
strings. -/
theorem collapseGo_true_nil :
    ∀ s, collapseGo true s = [] ↔ s.all isSpaceChar = true := by
  intro s
  induction s with
  | nil => simp [collapseGo]
  | cons c cs ih =>
    rw [collapseGo, List.all_cons]
    by_cases hws : isSpaceChar c = true
    · rw [if_pos hws, hws, Bool.true_and]
      exact ih
    · rw [if_neg hws]
      constructor
      · intro hc; exact absurd hc (by simp)
      · intro hc
        rw [Bool.and_eq_true_iff] at hc
        exact absurd hc.1 hws

/-- A non-empty all-space string does not end in a non-space character. -/
theorem allws_lastNW_false :
    ∀ s, s ≠ [] → s.all isSpaceChar = true → lastNW s = false := by
  intro s
  induction s with
  | nil => intro hne _; exact absurd rfl hne
  | cons c cs ih =>
    intro _ hall
    rw [List.all_cons, Bool.and_eq_true_iff] at hall
    cases cs with
    | nil =>
      rw [lastNW, hall.1]
      rfl
    | cons d r =>
      rw [lastNW]
      exact ih (by simp) hall.2

/-- The collapse of a string with non-whitespace last character is clean,
the true-flag collapse additionally has a non-whitespace head, and the
false-flag collapse preserves a non-whitespace head. -/
theorem collapseGo_clean_out :
    ∀ s, lastNW s = true →
      cleanB (collapseGo false s) = true ∧ cleanB (collapseGo true s) = true ∧
      headNW (collapseGo true s) = true ∧
      (headNW s = true → headNW (collapseGo false s) = true) := by
  intro s
  induction s with
  | nil => exact fun _ => ⟨rfl, rfl, rfl, fun _ => rfl⟩
  | cons c cs ih =>
    intro hlast
    by_cases hws : isSpaceChar c = true
    · cases cs with
      | nil =>
        rw [lastNW, hws] at hlast
        exact absurd hlast (by simp)
      | cons d r =>
        rw [lastNW] at hlast
        obtain ⟨ih1, ih2, ih3, _⟩ := ih hlast
        have hXne : collapseGo true (d :: r) ≠ [] := by
          intro hc
          have hall := (collapseGo_true_nil (d :: r)).mp hc
          have hf := allws_lastNW_false (d :: r) (by simp) hall
          rw [hlast] at hf
          exact absurd hf (by simp)
        refine ⟨?_, ?_, ?_, ?_⟩
        · rw [collapseGo, if_pos hws, if_neg (by simp)]
          cases hX : collapseGo true (d :: r) with
          | nil => exact absurd hX hXne
          | cons x xs =>
            rw [hX] at ih2 ih3
            rw [headNW] at ih3
            exact cleanB_cons_space x xs (bnot_true _ ih3) ih2
        · rw [collapseGo, if_pos hws]
          exact ih2
        · rw [collapseGo, if_pos hws]
          exact ih3
        · intro hhead
          rw [headNW, hws] at hhead
          exact absurd hhead (by simp)
    · have hws' : isSpaceChar c = false := by
        cases hh : isSpaceChar c
        · rfl
        · exact absurd hh hws
      have hlast' : lastNW cs = true := by
        cases cs with
        | nil => rfl
        | cons d r => rw [lastNW] at hlast; exact hlast
      obtain ⟨ih1, _, _, _⟩ := ih hlast'
      refine ⟨?_, ?_, ?_, ?_⟩
      · rw [collapseGo, if_neg hws]
        exact cleanB_cons_nonspace c _ hws' ih1
      · rw [collapseGo, if_neg hws]
        exact cleanB_cons_nonspace c _ hws' ih1
      · rw [collapseGo, if_neg hws, headNW, hws']
        rfl
      · intro _
        rw [collapseGo, if_neg hws, headNW, hws']
        rfl

/-- The head of a leading-whitespace-stripped string is not whitespace. -/
theorem headNW_dropWhile : ∀ s : Line, headNW (s.dropWhile isSpaceChar) = true := by
  intro s
  induction s with
  | nil => rfl
  | cons c cs ih =>
    rw [List.dropWhile_cons]
    by_cases hws : isSpaceChar c = true
    · rw [if_pos hws]; exact ih
    · rw [if_neg hws, headNW]
      cases hh : isSpaceChar c
      · rfl
      · exact absurd hh hws

/-- Trailing-whitespace removal preserves a non-whitespace head. -/
theorem headNW_dropTrailingWS (s : Line) (h : headNW s = true) :
    headNW (dropTrailingWS s) = true := by
  cases s with
  | nil => rfl
  | cons c cs =>
    rw [dropTrailingWS]
    by_cases hc : ((dropTrailingWS cs).isEmpty && isSpaceChar c) = true
    · rw [if_pos hc]; rfl
    · rw [if_neg hc, headNW]
      rw [headNW] at h
      exact h

/-- The last character after trailing-whitespace removal is not
whitespace. -/
theorem lastNW_dropTrailingWS : ∀ s : Line, lastNW (dropTrailingWS s) = true := by
  intro s
  induction s with
  | nil => rfl
  | cons c cs ih =>
    rw [dropTrailingWS]
    by_cases hc : ((dropTrailingWS cs).isEmpty && isSpaceChar c) = true
    · rw [if_pos hc]; rfl
    · rw [if_neg hc]
      cases hr : dropTrailingWS cs with
      | nil =>
        rw [hr] at hc
        rw [lastNW]
        cases hh : isSpaceChar c
        · rfl
        · exact absurd (by rw [hh]; rfl) hc
      | cons x xs =>
        rw [lastNW]
        rw [hr] at ih
        exact ih

/-- The whitespace-cleanup stage of the normalizer is idempotent. -/
theorem whitespaceCleanup_idem (s : Line) :
    whitespaceCleanup (whitespaceCleanup s) = whitespaceCleanup s := by
  have hhead_u : headNW (stripWS s) = true :=
    headNW_dropTrailingWS _ (headNW_dropWhile s)
  have hlast_u : lastNW (stripWS s) = true := lastNW_dropTrailingWS _
  obtain ⟨hclean, _, _, hheadp⟩ := collapseGo_clean_out (stripWS s) hlast_u
  have hhead_t : headNW (collapseGo false (stripWS s)) = true := hheadp hhead_u
  show whitespaceCleanup (collapseGo false (stripWS s)) = collapseGo false (stripWS s)
  rw [whitespaceCleanup, stripWS, collapseWS,
    dropWhile_id_of_headNW _ hhead_t,
    dropTrailingWS_id_of_lastNW _ (cleanB_lastNW _ hclean),
    (collapseGo_id_of_clean _ hclean).1]

/-!
The output of the full normalizer is whitespace-clean: every replacement
made by the pattern-fix scanners is itself clean with non-whitespace end
characters, so the cleanliness produced by the whitespace-cleanup stage
survives the later stages.
-/

/-- Digits are not whitespace. -/
theorem digit_not_space (c : Char) (h : isDigitChar c = true) :
    isSpaceChar c = false := by
  have h1 : c ≠ ' ' := fun hc => by rw [hc] at h; exact absurd h (by decide)
  have h2 : c ≠ '\t' := fun hc => by rw [hc] at h; exact absurd h (by decide)
  have h3 : c ≠ '\n' := fun hc => by rw [hc] at h; exact absurd h (by decide)
  have h4 : c ≠ '\r' := fun hc => by rw [hc] at h; exact absurd h (by decide)
  have h5 : c ≠ '\x0b' := fun hc => by rw [hc] at h; exact absurd h (by decide)
  have h6 : c ≠ '\x0c' := fun hc => by rw [hc] at h; exact absurd h (by decide)
  simp [isSpaceChar, h1, h2, h3, h4, h5, h6]

/-- Letters are not whitespace. -/
theorem alpha_not_space (c : Char) (h : isAlphaChar c = true) :
    isSpaceChar c = false := by
  have h1 : c ≠ ' ' := fun hc => by rw [hc] at h; exact absurd h (by decide)
  have h2 : c ≠ '\t' := fun hc => by rw [hc] at h; exact absurd h (by decide)
  have h3 : c ≠ '\n' := fun hc => by rw [hc] at h; exact absurd h (by decide)
  have h4 : c ≠ '\r' := fun hc => by rw [hc] at h; exact absurd h (by decide)
  have h5 : c ≠ '\x0b' := fun hc => by rw [hc] at h; exact absurd h (by decide)
  have h6 : c ≠ '\x0c' := fun hc => by rw [hc] at h; exact absurd h (by decide)
  simp [isSpaceChar, h1, h2, h3, h4, h5, h6]

/-- Strings without whitespace are clean. -/
theorem allNonspace_cleanB :
    ∀ s : Line, (∀ c ∈ s, isSpaceChar c = false) → cleanB s = true := by
  intro s
  induction s with
  | nil => intro _; rfl
  | cons c cs ih =>
    intro h
    cases cs with
    | nil =>
      rw [cleanB, h c (List.mem_cons_self _ _)]
      rfl
    | cons d r =>
      rw [cleanB, Bool.and_eq_true_iff]
      refine ⟨?_, ih (fun x hx => h x (List.mem_cons_of_mem _ hx))⟩
      rw [h c (List.mem_cons_self _ _)]
      rfl

/-- The last character of a whitespace-free string is not whitespace. -/
theorem allNonspace_lastNW :
    ∀ s : Line, (∀ c ∈ s, isSpaceChar c = false) → lastNW s = true := by
  intro s
  induction s with
  | nil => intro _; rfl
  | cons c cs ih =>
    intro h
    cases cs with
    | nil => rw [lastNW, h c (List.mem_cons_self _ _)]; rfl
    | cons d r =>
      rw [lastNW]
      exact ih (fun x hx => h x (List.mem_cons_of_mem _ hx))

/-- Concatenation of a clean string with a non-whitespace last character
and a clean string is clean. -/
theorem cleanB_append :
    ∀ a b : Line, cleanB a = true → lastNW a = true → cleanB b = true →
      cleanB (a ++ b) = true := by
  intro a
  induction a with
  | nil => intro b _ _ hb; exact hb
  | cons c cs ih =>
    intro b ha hla hb
    cases cs with
    | nil =>
      cases b with
      | nil => exact ha
      | cons y ys =>
        rw [List.cons_append, List.nil_append, cleanB, Bool.and_eq_true_iff]
        refine ⟨?_, hb⟩
        rw [lastNW] at hla
        rw [bnot_true _ hla]
        rfl
    | cons d r =>
      rw [List.cons_append, List.cons_append, cleanB, Bool.and_eq_true_iff]
      rw [cleanB, Bool.and_eq_true_iff] at ha
      rw [lastNW] at hla
      rw [← List.cons_append]
      exact ⟨ha.1, ih b ha.2 hla hb⟩

/-- The last character of a concatenation with a non-empty second part. -/
theorem lastNW_append :
    ∀ a b : Line, b ≠ [] → lastNW (a ++ b) = lastNW b := by
  intro a
  induction a with
  | nil => intro b _; rfl
  | cons c cs ih =>
    intro b hb
    rw [List.cons_append]
    cases hcs : cs ++ b with
    | nil =>
      exact absurd (List.append_eq_nil.mp hcs).2 hb
    | cons y ys =>
      rw [lastNW, ← hcs]
      exact ih b hb

/-- Suffixes of clean strings are clean. -/
theorem cleanB_drop :
    ∀ (n : Nat) (s : Line), cleanB s = true → cleanB (s.drop n) = true := by
  intro n
  induction n with
  | zero => intro s h; exact h
  | succ n ih =>
    intro s h
    cases s with
    | nil => exact h
    | cons c cs => exact ih cs (cleanB_tail c cs h)

/-- Leading-whitespace removal is some drop. -/
theorem dropWhile_eq_drop (p : Char → Bool) :
    ∀ s : Line, ∃ k, s.dropWhile p = s.drop k := by
  intro s
  induction s with
  | nil => exact ⟨0, rfl⟩
  | cons c cs ih =>
    by_cases hc : p c = true
    · obtain ⟨k, hk⟩ := ih
      refine ⟨k + 1, ?_⟩
      rw [List.dropWhile_cons, if_pos hc, hk]
      rfl
    · refine ⟨0, ?_⟩
      rw [List.dropWhile_cons, if_neg hc]
      rfl

/-- Peeling one element of a drop. -/
theorem drop_cons_succ :
    ∀ (n : Nat) (s t : Line) (x : Char), s.drop n = x :: t → t = s.drop (n + 1) := by
  intro n
  induction n with
  | zero =>
    intro s t x h
    rw [List.drop_zero] at h
    rw [h]
    rfl
  | succ n ih =>
    intro s t x h
    cases s with
    | nil => exact absurd h (by simp)
    | cons y ys =>
      rw [List.drop_succ_cons] at h
      rw [List.drop_succ_cons]
      exact ih ys t x h

/-- A string in the amount language starts with a non-whitespace
character (a sign or a digit). -/
theorem amountLang_head_nonspace (s : Line) (h : amountLang s = true) :
    ∃ c t, s = c :: t ∧ isSpaceChar c = false := by
  cases s with
  | nil => exact absurd h (by decide)
  | cons c t =>
    refine ⟨c, t, rfl, ?_⟩
    by_cases hm : c = '-'
    · rw [hm]; decide
    · have hcore : amountCore (c :: t) = true := by
        rw [amountLang.eq_def] at h
        split at h
        · rename_i heq
          exact absurd (List.cons.inj heq).1 hm
        · exact h
      rw [amountCore, List.span_eq_take_drop] at hcore
      by_cases hd : isDigitChar c = true
      · exact digit_not_space c hd
      · rw [List.takeWhile_cons] at hcore
        rw [if_neg hd] at hcore
        exact absurd hcore (by simp)

/-- A successful case-insensitive prefix match leaves a suffix. -/
theorem matchCI_drop :
    ∀ (p s r : Line), matchCI p s = some r → ∃ n, r = s.drop n := by
  intro p
  induction p with
  | nil =>
    intro s r h
    exact ⟨0, by rw [List.drop_zero]; exact (Option.some.inj h).symm⟩
  | cons c cs ih =>
    intro s r h
    cases s with
    | nil => exact absurd h (by rw [matchCI]; simp)
    | cons x xs =>
      rw [matchCI] at h
      by_cases hx : asciiLower x = asciiLower c
      · rw [if_pos hx] at h
        obtain ⟨n, hn⟩ := ih xs r h
        exact ⟨n + 1, by rw [hn, List.drop_succ_cons]⟩
      · rw [if_neg hx] at h
        exact absurd h (by simp)

/-- A successful token match leaves a suffix. -/
theorem matchToks_drop :
    ∀ (ts : List Tok) (s r : Line), matchToks ts s = some r → ∃ n, r = s.drop n := by
  intro ts
  induction ts with
  | nil =>
    intro s r h
    exact ⟨0, by rw [List.drop_zero]; exact (Option.some.inj h).symm⟩
  | cons t ts ih =>
    intro s r h
    cases t with
    | gap =>
      rw [matchToks] at h
      obtain ⟨n, hn⟩ := ih _ r h
      obtain ⟨k, hk⟩ := dropWhile_eq_drop isSpaceChar s
      rw [hk] at hn
      refine ⟨k + n, ?_⟩
      rw [hn, List.drop_drop]
    | lit c =>
      cases s with
      | nil => exact absurd h (by rw [matchToks]; simp)
      | cons x xs =>
        rw [matchToks] at h
        by_cases hx : asciiLower x = asciiLower c
        · rw [if_pos hx] at h
          obtain ⟨n, hn⟩ := ih xs r h
          exact ⟨n + 1, by rw [hn, List.drop_succ_cons]⟩
        · rw [if_neg hx] at h
          exact absurd h (by simp)

/-- A month-day match leaves a suffix. -/
theorem tryMonthDay_drop (m : Line) (prev : Option Char) (s ds rest : Line)
    (h : tryMonthDay m prev s = some (ds, rest)) : ∃ n, rest = s.drop n := by
  rw [tryMonthDay] at h
  by_cases hb : bOK prev = true
  · rw [if_pos hb] at h
    cases hm : matchCI m s with
    | none => rw [hm] at h; exact absurd h (by simp)
    | some r1 =>
      rw [hm] at h
      dsimp only at h
      obtain ⟨k, hk⟩ := matchCI_drop m s r1 hm
      cases hr1 : r1 with
      | nil => rw [hr1] at h; exact absurd h (by simp)
      | cons d1 r2 =>
        rw [hr1] at h
        dsimp only at h
        rw [hr1] at hk
        have hk2 : r2 = s.drop (k + 1) := drop_cons_succ k s r2 d1 hk.symm
        by_cases hd1 : isDigitChar d1 = true
        · rw [if_pos hd1] at h
          cases hr2 : r2 with
          | nil =>
            rw [hr2] at h
            dsimp only at h
            have heq := Option.some.inj h
            have hB : rest = [] := (congrArg Prod.snd heq).symm
            exact ⟨s.length, by rw [hB, List.drop_length]⟩
          | cons d2 r3 =>
            rw [hr2] at h
            dsimp only at h
            rw [hr2] at hk2
            have hk3 : r3 = s.drop (k + 1 + 1) := drop_cons_succ (k + 1) s r3 d2 hk2.symm
            by_cases hd2 : isDigitChar d2 = true
            · rw [if_pos hd2] at h
              by_cases hnw : nwHead r3 = true
              · rw [if_pos hnw] at h
                have heq := Option.some.inj h
                have hB : rest = r3 := (congrArg Prod.snd heq).symm
                exact ⟨k + 1 + 1, by rw [hB]; exact hk3⟩
              · rw [if_neg hnw] at h
                exact absurd h (by simp)
            · rw [if_neg hd2] at h
              by_cases hw : isWordChar d2 = true
              · rw [if_pos hw] at h
                exact absurd h (by simp)
              · rw [if_neg hw] at h
                have heq := Option.some.inj h
                have hB : rest = d2 :: r3 := (congrArg Prod.snd heq).symm
                exact ⟨k + 1, by rw [hB]; exact hk2⟩
        · rw [if_neg hd1] at h
          exact absurd h (by simp)
  · rw [if_neg hb] at h
    exact absurd h (by simp)

/-- Suffixes of clean strings are clean. -/
theorem cleanB_suffix (t s : Line) (h : t <:+ s) (hc : cleanB s = true) :
    cleanB t = true := by
  obtain ⟨pre, rfl⟩ := h
  induction pre with
  | nil => exact hc
  | cons a as ih => exact ih (cleanB_tail a _ hc)

/-- Case-insensitive prefix matching leaves a suffix. -/
theorem matchCI_suffix (p s r : Line) (h : matchCI p s = some r) : r <:+ s := by
  obtain ⟨n, hn⟩ := matchCI_drop p s r h
  rw [hn]
  exact List.drop_suffix n s

/-- Token matching leaves a suffix. -/
theorem matchToks_suffix (ts : List Tok) (s r : Line) (h : matchToks ts s = some r) :
    r <:+ s := by
  obtain ⟨n, hn⟩ := matchToks_drop ts s r h
  rw [hn]
  exact List.drop_suffix n s

/-- The head of a concatenation with a non-empty first part. -/
theorem headNW_append_left (a b : Line) (ha : a ≠ []) :
    headNW (a ++ b) = headNW a := by
  cases a with
  | nil => exact absurd rfl ha
  | cons c cs => rfl

/-- A month-day match captures a non-empty digit group and leaves a
suffix. -/
theorem tryMonthDay_spec (m : Line) (prev : Option Char) (s ds rest : Line)
    (h : tryMonthDay m prev s = some (ds, rest)) :
    rest <:+ s ∧ ds ≠ [] ∧ (∀ c ∈ ds, isDigitChar c = true) := by
  rw [tryMonthDay] at h
  by_cases hb : bOK prev = true
  · rw [if_pos hb] at h
    cases hm : matchCI m s with
    | none => rw [hm] at h; exact absurd h (by simp)
    | some r1 =>
      rw [hm] at h
      dsimp only at h
      have hr1s : r1 <:+ s := matchCI_suffix m s r1 hm
      cases hr1 : r1 with
      | nil => rw [hr1] at h; exact absurd h (by simp)
      | cons d1 r2 =>
        rw [hr1] at h
        dsimp only at h
        rw [hr1] at hr1s
        have hr2s : r2 <:+ s := (List.suffix_cons d1 r2).trans hr1s
        by_cases hd1 : isDigitChar d1 = true
        · rw [if_pos hd1] at h
          cases hr2 : r2 with
          | nil =>
            rw [hr2] at h
            dsimp only at h
            have heq := Option.some.inj h
            have hA : ds = [d1] := (congrArg Prod.fst heq).symm
            have hB : rest = [] := (congrArg Prod.snd heq).symm
            refine ⟨by rw [hB]; exact List.nil_suffix, by rw [hA]; simp, ?_⟩
            intro c hc
            rw [hA] at hc
            rw [List.mem_singleton.mp hc]
            exact hd1
          | cons d2 r3 =>
            rw [hr2] at h
            dsimp only at h
            rw [hr2] at hr2s
            have hr3s : r3 <:+ s := (List.suffix_cons d2 r3).trans hr2s
            by_cases hd2 : isDigitChar d2 = true
            · rw [if_pos hd2] at h
              by_cases hnw : nwHead r3 = true
              · rw [if_pos hnw] at h
                have heq := Option.some.inj h
                have hA : ds = [d1, d2] := (congrArg Prod.fst heq).symm
                have hB : rest = r3 := (congrArg Prod.snd heq).symm
                refine ⟨by rw [hB]; exact hr3s, by rw [hA]; simp, ?_⟩
                intro c hc
                rw [hA] at hc
                rcases List.mem_cons.mp hc with rfl | hc2
                · exact hd1
                · rw [List.mem_singleton.mp hc2]
                  exact hd2
              · rw [if_neg hnw] at h
                exact absurd h (by simp)
            · rw [if_neg hd2] at h
              by_cases hw : isWordChar d2 = true
              · rw [if_pos hw] at h
                exact absurd h (by simp)
              · rw [if_neg hw] at h
                have heq := Option.some.inj h
                have hA : ds = [d1] := (congrArg Prod.fst heq).symm
                have hB : rest = d2 :: r3 := (congrArg Prod.snd heq).symm
                refine ⟨by rw [hB]; exact hr2s, by rw [hA]; simp, ?_⟩
                intro c hc
                rw [hA] at hc
                rw [List.mem_singleton.mp hc]
                exact hd1
        · rw [if_neg hd1] at h
          exact absurd h (by simp)
  · rw [if_neg hb] at h
    exact absurd h (by simp)

/-- A day-month match captures a non-empty digit group and leaves a
suffix. -/
theorem tryDayMonth_spec (m : Line) (prev : Option Char) (s ds rest : Line)
    (h : tryDayMonth m prev s = some (ds, rest)) :
    rest <:+ s ∧ ds ≠ [] ∧ (∀ c ∈ ds, isDigitChar c = true) := by
  rw [tryDayMonth.eq_def] at h
  by_cases hb : bOK prev = true
  · rw [if_pos hb] at h
    cases s with
    | nil => exact absurd h (by simp)
    | cons d1 r1 =>
      dsimp only at h
      by_cases hd1 : isDigitChar d1 = true
      · rw [if_pos hd1] at h
        cases hr1 : r1 with
        | nil =>
          rw [hr1] at h
          dsimp only at h
          cases hm1 : matchCI m [] with
          | none => rw [hm1] at h; exact absurd h (by simp)
          | some r2 =>
            rw [hm1] at h
            dsimp only at h
            by_cases hnw : nwHead r2 = true
            · rw [if_pos hnw] at h
              have heq := Option.some.inj h
              have hA : ds = [d1] := (congrArg Prod.fst heq).symm
              have hB : rest = r2 := (congrArg Prod.snd heq).symm
              have hs : rest <:+ [d1] := by
                rw [hB]
                exact (matchCI_suffix m [] r2 hm1).trans List.nil_suffix
              refine ⟨hs, by rw [hA]; simp, ?_⟩
              intro c hc
              rw [hA] at hc
              rw [List.mem_singleton.mp hc]
              exact hd1
            · rw [if_neg hnw] at h
              exact absurd h (by simp)
        | cons d2 r2 =>
          rw [hr1] at h
          dsimp only at h
          have hfall : ∀ hh : (match matchCI m (d2 :: r2) with
              | some r4 => if nwHead r4 = true then some ([d1], r4) else none
              | none => none) = some (ds, rest),
              rest <:+ d1 :: d2 :: r2 ∧ ds ≠ [] ∧ (∀ c ∈ ds, isDigitChar c = true) := by
            intro hh
            cases hm4 : matchCI m (d2 :: r2) with
            | none => rw [hm4] at hh; exact absurd hh (by simp)
            | some r4 =>
              rw [hm4] at hh
              dsimp only at hh
              by_cases hnw4 : nwHead r4 = true
              · rw [if_pos hnw4] at hh
                have heq := Option.some.inj hh
                have hA : ds = [d1] := (congrArg Prod.fst heq).symm
                have hB : rest = r4 := (congrArg Prod.snd heq).symm
                have hs : rest <:+ d1 :: d2 :: r2 := by
                  rw [hB]
                  exact (matchCI_suffix m _ r4 hm4).trans (List.suffix_cons d1 (d2 :: r2))
                refine ⟨hs, by rw [hA]; simp, ?_⟩
                intro c hc
                rw [hA] at hc
                rw [List.mem_singleton.mp hc]
                exact hd1
              · rw [if_neg hnw4] at hh
                exact absurd hh (by simp)
          by_cases hd2 : isDigitChar d2 = true
          · rw [if_pos hd2] at h
            cases hm2 : matchCI m r2 with
            | some r3 =>
              rw [hm2] at h
              dsimp only at h
              by_cases hnw : nwHead r3 = true
              · rw [if_pos hnw] at h
                dsimp only at h
                have heq := Option.some.inj h
                have hA : ds = [d1, d2] := (congrArg Prod.fst heq).symm
                have hB : rest = r3 := (congrArg Prod.snd heq).symm
                have h1 : r3 <:+ r2 := matchCI_suffix m r2 r3 hm2
                have hs : rest <:+ d1 :: d2 :: r2 := by
                  rw [hB]
                  exact (h1.trans (List.suffix_cons d2 r2)).trans
                    (List.suffix_cons d1 (d2 :: r2))
                refine ⟨hs, by rw [hA]; simp, ?_⟩
                intro c hc
                rw [hA] at hc
                rcases List.mem_cons.mp hc with rfl | hc2
                · exact hd1
                · rw [List.mem_singleton.mp hc2]
                  exact hd2
              · rw [if_neg hnw] at h
                dsimp only at h
                exact hfall h
            | none =>
              rw [hm2] at h
              dsimp only at h
              exact hfall h
          · rw [if_neg hd2] at h
            dsimp only at h
            exact hfall h
      · rw [if_neg hd1] at h
        exact absurd h (by simp)
  · rw [if_neg hb] at h
    exact absurd h (by simp)

/-- A digit-joining match captures two non-empty digit groups and leaves
a suffix. -/
theorem tryJoin_spec (sep : Char) (s g1 g2 rest : Line)
    (h : tryJoin sep s = some (g1, g2, rest)) :
    rest <:+ s ∧ g1 ≠ [] ∧ g2 ≠ [] ∧ (∀ c ∈ g1, isDigitChar c = true) ∧
      (∀ c ∈ g2, isDigitChar c = true) := by
  rw [tryJoin] at h
  simp only [List.span_eq_take_drop] at h
  by_cases h1 : (s.takeWhile isDigitChar).isEmpty = true
  · rw [if_pos h1] at h
    exact absurd h (by simp)
  · rw [if_neg h1] at h
    cases hdw : (s.dropWhile isDigitChar).dropWhile isSpaceChar with
    | nil => rw [hdw] at h; exact absurd h (by simp)
    | cons c r3 =>
      rw [hdw] at h
      dsimp only at h
      by_cases hc : c = sep
      · rw [if_pos hc] at h
        by_cases h2 : ((r3.dropWhile isSpaceChar).takeWhile isDigitChar).isEmpty = true
        · rw [if_pos h2] at h
          exact absurd h (by simp)
        · rw [if_neg h2] at h
          have heq := Option.some.inj h
          have hA : g1 = s.takeWhile isDigitChar := (congrArg Prod.fst heq).symm
          have hB : g2 = (r3.dropWhile isSpaceChar).takeWhile isDigitChar :=
            (congrArg (fun q => q.2.1) heq).symm
          have hC : rest = (r3.dropWhile isSpaceChar).dropWhile isDigitChar :=
            (congrArg (fun q => q.2.2) heq).symm
          have hcons : (c :: r3 : Line) <:+ s := by
            rw [← hdw]
            exact (List.dropWhile_suffix isSpaceChar).trans
              (List.dropWhile_suffix isDigitChar)
          refine ⟨?_, ?_, ?_, ?_, ?_⟩
          · rw [hC]
            exact ((List.dropWhile_suffix isDigitChar).trans
              (List.dropWhile_suffix isSpaceChar)).trans
              ((List.suffix_cons c r3).trans hcons)
          · rw [hA]
            intro hcn
            rw [hcn] at h1
            exact h1 rfl
          · rw [hB]
            intro hcn
            rw [hcn] at h2
            exact h2 rfl
          · intro x hx
            rw [hA] at hx
            exact List.mem_takeWhile_imp hx
          · intro x hx
            rw [hB] at hx
            exact List.mem_takeWhile_imp hx
      · rw [if_neg hc] at h
        exact absurd h (by simp)

/-- A substitution pass with non-empty replacements maps non-empty lines
to non-empty lines. -/
theorem scan_ne_nil (step : Option Char → Line → Option (Line × Line))
    (hstep : ∀ prev s rep rest, step prev s = some (rep, rest) → rep ≠ []) :
    ∀ (fuel : Nat) (prev : Option Char) (s : Line), s ≠ [] →
      scan step fuel prev s ≠ [] := by
  intro fuel
  cases fuel with
  | zero => intro prev s hs; exact hs
  | succ n =>
    intro prev s hs
    cases s with
    | nil => exact absurd rfl hs
    | cons x xs =>
      cases hst : step prev (x :: xs) with
      | some pr =>
        obtain ⟨rep, rest⟩ := pr
        have hne := hstep prev (x :: xs) rep rest hst
        simp only [scan]
        rw [hst]
        dsimp only
        intro hcontra
        exact hne (List.append_eq_nil.mp hcontra).1
      | none =>
        simp only [scan]
        rw [hst]
        dsimp only
        exact List.cons_ne_nil x _

/-- Non-whitespace heads transfer along equal `head?`. -/
theorem headNW_of_head_eq (a b : Line) (h : a.head? = b.head?)
    (hb : headNW b = true) : headNW a = true := by
  cases a with
  | nil => rfl
  | cons c cs =>
    cases b with
    | nil => exact absurd h (by simp)
    | cons d ds =>
      have hcd : c = d := by simpa using h
      rw [headNW, hcd]
      exact hb

/-- A substitution pass whose replacements are clean, non-empty and end
and begin with non-whitespace preserves cleanliness, and its output
either keeps the input head or starts with non-whitespace. -/
theorem scan_clean (step : Option Char → Line → Option (Line × Line))
    (hstep : ∀ prev s rep rest, step prev s = some (rep, rest) →
      rest <:+ s ∧ rep ≠ [] ∧ cleanB rep = true ∧ headNW rep = true ∧
        lastNW rep = true) :
    ∀ (fuel : Nat) (prev : Option Char) (s : Line), cleanB s = true →
      cleanB (scan step fuel prev s) = true ∧
      ((scan step fuel prev s).head? = s.head? ∨
        headNW (scan step fuel prev s) = true) := by
  intro fuel
  induction fuel with
  | zero => intro prev s hc; exact ⟨hc, Or.inl rfl⟩
  | succ n ih =>
    intro prev s hc
    cases s with
    | nil => exact ⟨rfl, Or.inl rfl⟩
    | cons x xs =>
      cases hst : step prev (x :: xs) with
      | some pr =>
        obtain ⟨rep, rest⟩ := pr
        obtain ⟨hsuf, hne, hcrep, hhrep, hlrep⟩ := hstep prev (x :: xs) rep rest hst
        have hcrest : cleanB rest = true := cleanB_suffix rest (x :: xs) hsuf hc
        obtain ⟨hcT, _⟩ :=
          ih (((x :: xs).take ((x :: xs).length - rest.length)).getLast?) rest hcrest
        simp only [scan]
        rw [hst]
        dsimp only
        constructor
        · exact cleanB_append rep _ hcrep hlrep hcT
        · right
          rw [headNW_append_left rep _ hne]
          exact hhrep
      | none =>
        have hcxs : cleanB xs = true := cleanB_tail x xs hc
        obtain ⟨hcT, hheadT⟩ := ih (some x) xs hcxs
        simp only [scan]
        rw [hst]
        dsimp only
        refine ⟨?_, Or.inl rfl⟩
        cases hT : scan step n (some x) xs with
        | nil =>
          cases xs with
          | nil => exact hc
          | cons z zs =>
            have hnn : scan step n (some x) (z :: zs) ≠ [] :=
              scan_ne_nil step
                (fun prev s rep rest hh => (hstep prev s rep rest hh).2.1)
                n (some x) (z :: zs) (List.cons_ne_nil z zs)
            exact absurd hT hnn
        | cons t0 ts =>
          rw [cleanB, Bool.and_eq_true_iff]
          refine ⟨?_, by rw [← hT]; exact hcT⟩
          by_cases hwx : isSpaceChar x = true
          · cases xs with
            | nil =>
              rw [cleanB, hwx] at hc
              exact absurd hc (by decide)
            | cons z zs =>
              rw [cleanB, Bool.and_eq_true_iff] at hc
              obtain ⟨hpair, _⟩ := hc
              rw [Bool.or_eq_true_iff] at hpair
              rcases hpair with hbad | hgood
              · rw [hwx] at hbad
                exact absurd hbad (by decide)
              · rw [Bool.and_eq_true_iff] at hgood
                obtain ⟨hx1, hz1⟩ := hgood
                have ht0 : isSpaceChar t0 = false := by
                  rcases hheadT with hh | hh
                  · rw [hT] at hh
                    have hzz : t0 = z := by simpa using hh
                    rw [hzz]
                    cases hzc : isSpaceChar z with
                    | false => rfl
                    | true => rw [hzc] at hz1; exact absurd hz1 (by decide)
                  · rw [hT, headNW] at hh
                    cases htc : isSpaceChar t0 with
                    | false => rfl
                    | true => rw [htc] at hh; exact absurd hh (by decide)
                rw [Bool.or_eq_true_iff]
                right
                rw [Bool.and_eq_true_iff]
                exact ⟨hx1, by rw [ht0]; rfl⟩
          · have hx0 : isSpaceChar x = false := by
              cases hxc : isSpaceChar x with
              | false => rfl
              | true => exact absurd hxc hwx
            rw [Bool.or_eq_true_iff]
            left
            rw [hx0]
            rfl

/-- All-non-whitespace strings start with non-whitespace. -/
theorem allNonspace_headNW :
    ∀ s : Line, (∀ c ∈ s, isSpaceChar c = false) → headNW s = true := by
  intro s h
  cases s with
  | nil => rfl
  | cons c cs =>
    rw [headNW, h c (by simp)]
    rfl

/-- The currency-dot substitution replaces matches by the clean canonical
token `U.S.Dollar`. -/
theorem curStep_clean (ts : List Tok) :
    ∀ (prev : Option Char) (s rep rest : Line),
      curStep ts prev s = some (rep, rest) →
      rest <:+ s ∧ rep ≠ [] ∧ cleanB rep = true ∧ headNW rep = true ∧
        lastNW rep = true := by
  intro prev s rep rest h
  simp only [curStep] at h
  cases hm : matchToks ts s with
  | none => rw [hm] at h; exact absurd h (by simp)
  | some r0 =>
    rw [hm] at h
    dsimp only [Option.map] at h
    have heq := Option.some.inj h
    have hA : rep = usdCanon := (congrArg Prod.fst heq).symm
    have hB : rest = r0 := (congrArg Prod.snd heq).symm
    refine ⟨by rw [hB]; exact matchToks_suffix ts s r0 hm, ?_, ?_, ?_, ?_⟩
    · rw [hA]; decide
    · rw [hA]; decide
    · rw [hA]; decide
    · rw [hA]; decide

/-- The month-day substitution replaces matches by the clean string
`M <digits>` for a non-empty all-non-whitespace month name. -/
theorem monthDayStep_clean (m : Line) (hmne : m ≠ [])
    (hmns : ∀ c ∈ m, isSpaceChar c = false) :
    ∀ (prev : Option Char) (s rep rest : Line),
      monthDayStep m prev s = some (rep, rest) →
      rest <:+ s ∧ rep ≠ [] ∧ cleanB rep = true ∧ headNW rep = true ∧
        lastNW rep = true := by
  intro prev s rep rest h
  simp only [monthDayStep] at h
  cases hm : tryMonthDay m prev s with
  | none => rw [hm] at h; exact absurd h (by simp)
  | some p =>
    obtain ⟨ds, r0⟩ := p
    rw [hm] at h
    dsimp only [Option.map] at h
    have heq := Option.some.inj h
    have hA : rep = m ++ ' ' :: ds := (congrArg Prod.fst heq).symm
    have hB : rest = r0 := (congrArg Prod.snd heq).symm
    obtain ⟨hsuf, hdsne, hdsd⟩ := tryMonthDay_spec m prev s ds r0 hm
    have hdsns : ∀ c ∈ ds, isSpaceChar c = false :=
      fun c hc => digit_not_space c (hdsd c hc)
    refine ⟨by rw [hB]; exact hsuf, ?_, ?_, ?_, ?_⟩
    · rw [hA]
      intro hcon
      exact hmne (List.append_eq_nil.mp hcon).1
    · rw [hA]
      refine cleanB_append m (' ' :: ds) (allNonspace_cleanB m hmns)
        (allNonspace_lastNW m hmns) ?_
      cases ds with
      | nil => exact absurd rfl hdsne
      | cons d0 ds2 =>
        exact cleanB_cons_space d0 ds2 (hdsns d0 (by simp))
          (allNonspace_cleanB _ hdsns)
    · rw [hA, headNW_append_left m _ hmne]
      exact allNonspace_headNW m hmns
    · rw [hA, lastNW_append m (' ' :: ds) (by simp)]
      rw [show (' ' :: ds : Line) = [' '] ++ ds from rfl,
        lastNW_append [' '] ds hdsne]
      exact allNonspace_lastNW ds hdsns

/-- The day-month substitution replaces matches by the clean string
`<digits> M` for a non-empty all-non-whitespace month name. -/
theorem dayMonthStep_clean (m : Line) (hmne : m ≠ [])
    (hmns : ∀ c ∈ m, isSpaceChar c = false) :
    ∀ (prev : Option Char) (s rep rest : Line),
      dayMonthStep m prev s = some (rep, rest) →
      rest <:+ s ∧ rep ≠ [] ∧ cleanB rep = true ∧ headNW rep = true ∧
        lastNW rep = true := by
  intro prev s rep rest h
  simp only [dayMonthStep] at h
  cases hm : tryDayMonth m prev s with
  | none => rw [hm] at h; exact absurd h (by simp)
  | some p =>
    obtain ⟨ds, r0⟩ := p
    rw [hm] at h
    dsimp only [Option.map] at h
    have heq := Option.some.inj h
    have hA : rep = ds ++ ' ' :: m := (congrArg Prod.fst heq).symm
    have hB : rest = r0 := (congrArg Prod.snd heq).symm
    obtain ⟨hsuf, hdsne, hdsd⟩ := tryDayMonth_spec m prev s ds r0 hm
    have hdsns : ∀ c ∈ ds, isSpaceChar c = false :=
      fun c hc => digit_not_space c (hdsd c hc)
    refine ⟨by rw [hB]; exact hsuf, ?_, ?_, ?_, ?_⟩
    · rw [hA]
      intro hcon
      exact hdsne (List.append_eq_nil.mp hcon).1
    · rw [hA]
      refine cleanB_append ds (' ' :: m) (allNonspace_cleanB ds hdsns)
        (allNonspace_lastNW ds hdsns) ?_
      cases hm0 : m with
      | nil => exact absurd hm0 hmne
      | cons m0 ms =>
        refine cleanB_cons_space m0 ms ?_ ?_
        · exact hmns m0 (by rw [hm0]; simp)
        · exact allNonspace_cleanB _ (fun c hc => hmns c (by rw [hm0]; exact hc))
    · rw [hA, headNW_append_left ds _ hdsne]
      exact allNonspace_headNW ds hdsns
    · rw [hA, lastNW_append ds (' ' :: m) (by simp)]
      rw [show (' ' :: m : Line) = [' '] ++ m from rfl,
        lastNW_append [' '] m hmne]
      exact allNonspace_lastNW m hmns

/-- The digit-joining substitution replaces matches by the clean string
`<digits><sep><digits>` for a non-whitespace separator. -/
theorem joinStep_clean (sep : Char) (hsep : isSpaceChar sep = false) :
    ∀ (prev : Option Char) (s rep rest : Line),
      joinStep sep prev s = some (rep, rest) →
      rest <:+ s ∧ rep ≠ [] ∧ cleanB rep = true ∧ headNW rep = true ∧
        lastNW rep = true := by
  intro prev s rep rest h
  simp only [joinStep] at h
  cases hm : tryJoin sep s with
  | none => rw [hm] at h; exact absurd h (by simp)
  | some t =>
    obtain ⟨g1, g2, r0⟩ := t
    rw [hm] at h
    dsimp only [Option.map] at h
    have heq := Option.some.inj h
    have hA : rep = g1 ++ sep :: g2 := (congrArg Prod.fst heq).symm
    have hB : rest = r0 := (congrArg Prod.snd heq).symm
    obtain ⟨hsuf, hg1ne, hg2ne, hg1d, hg2d⟩ := tryJoin_spec sep s g1 g2 r0 hm
    have hall : ∀ c ∈ g1 ++ sep :: g2, isSpaceChar c = false := by
      intro c hc
      rcases List.mem_append.mp hc with h1 | h2
      · exact digit_not_space c (hg1d c h1)
      · rcases List.mem_cons.mp h2 with rfl | h3
        · exact hsep
        · exact digit_not_space c (hg2d c h3)
    refine ⟨by rw [hB]; exact hsuf, ?_, ?_, ?_, ?_⟩
    · rw [hA]
      intro hcon
      exact hg1ne (List.append_eq_nil.mp hcon).1
    · rw [hA]
      exact allNonspace_cleanB _ hall
    · rw [hA]
      exact allNonspace_headNW _ hall
    · rw [hA]
      exact allNonspace_lastNW _ hall

/-- A full `re.sub` pass with clean replacements preserves cleanliness
and a non-whitespace head. -/
theorem runScan_clean (step : Option Char → Line → Option (Line × Line))
    (hstep : ∀ prev s rep rest, step prev s = some (rep, rest) →
      rest <:+ s ∧ rep ≠ [] ∧ cleanB rep = true ∧ headNW rep = true ∧
        lastNW rep = true)
    (s : Line) (hc : cleanB s = true) :
    cleanB (runScan step s) = true ∧
      (headNW s = true → headNW (runScan step s) = true) := by
  obtain ⟨h1, h2⟩ := scan_clean step hstep s.length none s hc
  refine ⟨h1, fun hh => ?_⟩
  rcases h2 with he | hn
  · exact headNW_of_head_eq _ s he hh
  · exact hn

/-- The currency-dot stage preserves cleanliness and a non-whitespace
head. -/
theorem fixCurrencyDots_clean (s : Line) (hc : cleanB s = true) :
    cleanB (fixCurrencyDots s) = true ∧
      (headNW s = true → headNW (fixCurrencyDots s) = true) := by
  obtain ⟨c1, H1⟩ := runScan_clean (curStep usdToks1) (curStep_clean usdToks1) s hc
  obtain ⟨c2, H2⟩ := runScan_clean (curStep usdToks2) (curStep_clean usdToks2) _ c1
  obtain ⟨c3, H3⟩ := runScan_clean (curStep usdToks3) (curStep_clean usdToks3) _ c2
  obtain ⟨c4, H4⟩ := runScan_clean (curStep usdToks4) (curStep_clean usdToks4) _ c3
  exact ⟨c4, fun hh => H4 (H3 (H2 (H1 hh)))⟩

/-- Folding month-spacing passes over any list of well-formed month names
preserves cleanliness and a non-whitespace head. -/
theorem monthsFold_clean :
    ∀ (ms : List Line) (s : Line),
      (∀ m ∈ ms, m ≠ [] ∧ ∀ c ∈ m, isSpaceChar c = false) →
      cleanB s = true →
      cleanB (ms.foldl
        (fun t m => runScan (dayMonthStep m) (runScan (monthDayStep m) t)) s) = true ∧
      (headNW s = true → headNW (ms.foldl
        (fun t m => runScan (dayMonthStep m) (runScan (monthDayStep m) t)) s) = true) := by
  intro ms
  induction ms with
  | nil => intro s _ hc; exact ⟨hc, fun hh => hh⟩
  | cons m ms2 ih =>
    intro s hms hc
    rw [List.foldl_cons]
    obtain ⟨hmne, hmns⟩ := hms m (by simp)
    obtain ⟨c1, H1⟩ :=
      runScan_clean (monthDayStep m) (monthDayStep_clean m hmne hmns) s hc
    obtain ⟨c2, H2⟩ :=
      runScan_clean (dayMonthStep m) (dayMonthStep_clean m hmne hmns) _ c1
    obtain ⟨c3, H3⟩ := ih _ (fun m2 hm2 => hms m2 (by simp [hm2])) c2
    exact ⟨c3, fun hh => H3 (H2 (H1 hh))⟩

/-- The month-spacing stage preserves cleanliness and a non-whitespace
head. -/
theorem fixMonthSpacing_clean (s : Line) (hc : cleanB s = true) :
    cleanB (fixMonthSpacing s) = true ∧
      (headNW s = true → headNW (fixMonthSpacing s) = true) :=
  monthsFold_clean months s (by decide) hc

/-- The end-amount fix never changes the first character. -/
theorem fixEndAmount_head (s : Line) : (fixEndAmount s).head? = s.head? := by
  cases s with
  | nil => rfl
  | cons x xs =>
    rw [fixEndAmount]
    by_cases hx : (isAlphaChar x && amountLang xs) = true
    · rw [if_pos hx]
      rfl
    · rw [if_neg hx]
      rfl

/-- The end-amount fix maps non-empty lines to non-empty lines. -/
theorem fixEndAmount_ne_nil (s : Line) (hs : s ≠ []) : fixEndAmount s ≠ [] := by
  cases s with
  | nil => exact absurd rfl hs
  | cons x xs =>
    rw [fixEndAmount]
    by_cases hx : (isAlphaChar x && amountLang xs) = true
    · rw [if_pos hx]
      exact List.cons_ne_nil _ _
    · rw [if_neg hx]
      exact List.cons_ne_nil _ _

/-- The end-amount fix preserves cleanliness: the inserted space sits
between a letter and a digit. -/
theorem fixEndAmount_clean : ∀ s, cleanB s = true → cleanB (fixEndAmount s) = true := by
  intro s
  induction s with
  | nil => intro _; rfl
  | cons x xs ih =>
    intro hc
    have hcxs : cleanB xs = true := cleanB_tail x xs hc
    rw [fixEndAmount]
    by_cases hx : (isAlphaChar x && amountLang xs) = true
    · rw [if_pos hx]
      rw [Bool.and_eq_true_iff] at hx
      obtain ⟨hxa, hxl⟩ := hx
      obtain ⟨c0, t0, hxs, hc0⟩ := amountLang_head_nonspace xs hxl
      rw [hxs]
      rw [cleanB, Bool.and_eq_true_iff]
      constructor
      · rw [Bool.or_eq_true_iff]
        left
        rw [alpha_not_space x hxa]
        rfl
      · refine cleanB_cons_space c0 t0 hc0 ?_
        rw [← hxs]
        exact hcxs
    · rw [if_neg hx]
      have hT := ih hcxs
      cases hfe : fixEndAmount xs with
      | nil =>
        cases xs with
        | nil => exact hc
        | cons z zs =>
          exact absurd hfe (fixEndAmount_ne_nil (z :: zs) (List.cons_ne_nil z zs))
      | cons t0 ts =>
        rw [cleanB, Bool.and_eq_true_iff]
        refine ⟨?_, by rw [← hfe]; exact hT⟩
        by_cases hwx : isSpaceChar x = true
        · cases xs with
          | nil =>
            rw [cleanB, hwx] at hc
            exact absurd hc (by decide)
          | cons z zs =>
            rw [cleanB, Bool.and_eq_true_iff] at hc
            obtain ⟨hpair, _⟩ := hc
            rw [Bool.or_eq_true_iff] at hpair
            rcases hpair with hbad | hgood
            · rw [hwx] at hbad
              exact absurd hbad (by decide)
            · rw [Bool.and_eq_true_iff] at hgood
              obtain ⟨hx1, hz1⟩ := hgood
              have hh := fixEndAmount_head (z :: zs)
              rw [hfe] at hh
              have ht0 : t0 = z := by simpa using hh
              rw [Bool.or_eq_true_iff]
              right
              rw [Bool.and_eq_true_iff]
              refine ⟨hx1, ?_⟩
              rw [ht0]
              exact hz1
        · have hx0 : isSpaceChar x = false := by
            cases hxc : isSpaceChar x with
            | false => rfl
            | true => exact absurd hxc hwx
          rw [Bool.or_eq_true_iff]
          left
          rw [hx0]
          rfl

/-- The amount-spacing stage preserves cleanliness and a non-whitespace
head. -/
theorem fixAmountSpacing_clean (s : Line) (hc : cleanB s = true) :
    cleanB (fixAmountSpacing s) = true ∧
      (headNW s = true → headNW (fixAmountSpacing s) = true) := by
  obtain ⟨c1, H1⟩ := runScan_clean (joinStep ',') (joinStep_clean ',' (by decide)) s hc
  obtain ⟨c2, H2⟩ := runScan_clean (joinStep '.') (joinStep_clean '.' (by decide)) _ c1
  refine ⟨fixEndAmount_clean _ c2, fun hh => ?_⟩
  exact headNW_of_head_eq _ _ (fixEndAmount_head _) (H2 (H1 hh))

/-- Normalized output is whitespace-clean and starts with
non-whitespace. -/
theorem normalizeLine_clean (L : Line) :
    cleanB (normalizeLine L) = true ∧ headNW (normalizeLine L) = true := by
  by_cases hL : L.isEmpty = true
  · rw [normalizeLine, if_pos hL]
    have hnil : L = [] := by
      cases L with
      | nil => rfl
      | cons a as => exact absurd hL (by simp)
    rw [hnil]
    exact ⟨rfl, rfl⟩
  · rw [normalizeLine, if_neg hL]
    have hhu : headNW (stripWS L) = true :=
      headNW_dropTrailingWS _ (headNW_dropWhile L)
    have hlu : lastNW (stripWS L) = true := lastNW_dropTrailingWS _
    obtain ⟨hc0, _, _, hhp⟩ := collapseGo_clean_out (stripWS L) hlu
    have hh0 : headNW (whitespaceCleanup L) = true := hhp hhu
    obtain ⟨c1, H1⟩ := fixCurrencyDots_clean (whitespaceCleanup L) hc0
    obtain ⟨c2, H2⟩ := fixMonthSpacing_clean _ c1
    obtain ⟨c3, H3⟩ := fixAmountSpacing_clean _ c2
    exact ⟨c3, H3 (H2 (H1 hh0))⟩

/-- Whitespace cleanup is the identity on normalized output. -/
theorem whitespaceCleanup_normalizeLine (L : Line) :
    whitespaceCleanup (normalizeLine L) = normalizeLine L := by
  obtain ⟨hc, hh⟩ := normalizeLine_clean L
  have hl : lastNW (normalizeLine L) = true := cleanB_lastNW _ hc
  rw [whitespaceCleanup, stripWS, dropWhile_id_of_headNW _ hh,
    dropTrailingWS_id_of_lastNW _ hl]
  exact (collapseGo_id_of_clean _ hc).1

/-- Claim C3, counterexample: normalization is not idempotent — on the
line `12December549.00` the first pass moves only the amount apart
(`12December 549.00`), and the second pass then also separates the day
from the month (`12 December 549.00`), because the space inserted by the
amount fix creates the word boundary the day-month fix needs. -/
theorem claim_C3_counterexample :
    normalizeLine (normalizeLine (("12December549.00").data)) ≠
      normalizeLine (("12December549.00").data) := by decide

/-- Claim C3, amended: re-normalizing never re-does whitespace work —
the whitespace-cleanup stage is idempotent on every line and is the
identity on every normalized line (normalized output has no leading,
trailing, run or non-space whitespace).  Full normalization itself is
not idempotent: the amount-spacing fix can enable the day-month spacing
fix on re-normalization, as on `12December549.00`, whose normalization
chain is `12December 549.00`, then `12 December 549.00`, then stable. -/
theorem claim_C3_amended :
    (∀ L : Line, whitespaceCleanup (whitespaceCleanup L) = whitespaceCleanup L) ∧
    (∀ L : Line, whitespaceCleanup (normalizeLine L) = normalizeLine L) ∧
    normalizeLine (("12December549.00").data) = ("12December 549.00").data ∧
    normalizeLine (("12December 549.00").data) = ("12 December 549.00").data ∧
    normalizeLine (("12 December 549.00").data) = ("12 December 549.00").data :=
  ⟨whitespaceCleanup_idem, whitespaceCleanup_normalizeLine, by decide, by decide, by decide⟩

end BPI
